import Mathlib

set_option maxHeartbeats 1000000

/-!
Verification of the DiscordBot headline-intake pipeline.

Shallow embedding of the Python sources:
  `main_bot.py`   (normalize_title, the dedup step inside check_news_task,
                   the keyword-boost / publish orchestration),
  `llm_handler.py` (evaluate_significance_and_category response validation,
                   translate_en_to_el placeholder round-trip),
  `config.py`     (CATEGORIES, FUZZY_MATCH_THRESHOLD),
and of the library routine `thefuzz.fuzz.token_set_ratio` the dedup step calls.

Strings are modelled as `List Char`; Python's ASCII case mapping, `\w`,
`\s` and `str.split()` are modelled on ASCII characters.
-/

namespace DiscordBot

/-- The ASCII uppercase/lowercase letter pairs. -/
def asciiCase : List (Char × Char) :=
  [('A','a'),('B','b'),('C','c'),('D','d'),('E','e'),('F','f'),('G','g'),
   ('H','h'),('I','i'),('J','j'),('K','k'),('L','l'),('M','m'),('N','n'),
   ('O','o'),('P','p'),('Q','q'),('R','r'),('S','s'),('T','t'),('U','u'),
   ('V','v'),('W','w'),('X','x'),('Y','y'),('Z','z')]

/-- ASCII model of Python `str.lower` on one character. -/
def pyToLower (c : Char) : Char :=
  match asciiCase.find? (fun p => p.1 = c) with
  | some p => p.2
  | none => c

/-- ASCII model of Python `str.upper` on one character. -/
def pyToUpper (c : Char) : Char :=
  match asciiCase.find? (fun p => p.2 = c) with
  | some p => p.1
  | none => c

/-- Model of the regex class `\w` (ASCII): alphanumeric or underscore. -/
def isWordChar (c : Char) : Bool :=
  c.isAlphanum || c = '_'

/-- Model of the regex class `\s` and of the `str.split()` whitespace set
(the six ASCII whitespace characters Python uses). -/
def isSpaceCh (c : Char) : Bool :=
  c = ' ' || c = '\t' || c = '\n' || c = '\r' || c = '\x0b' || c = '\x0c'

/-- Helper for `pySplitWs`: a non-space character `c` starts a new word when
the following character is whitespace or the string ends, and otherwise
extends the first word of the split of the remainder. -/
def addCharToSplit (c : Char) (cs : List Char) (r : List (List Char)) :
    List (List Char) :=
  match cs, r with
  | d :: _, w :: ws => if isSpaceCh d then [c] :: w :: ws else (c :: w) :: ws
  | _, r => [c] :: r

/-- Model of Python `str.split()` (split on whitespace runs, discard empties). -/
def pySplitWs : List Char → List (List Char)
  | [] => []
  | c :: cs =>
    if isSpaceCh c then pySplitWs cs
    else addCharToSplit c cs (pySplitWs cs)

/-- Model of Python `' '.join(words)`. -/
def joinWords : List (List Char) → List Char
  | [] => []
  | [w] => w
  | w :: ws => w ++ ' ' :: joinWords ws

/-- Embedding of `normalize_title` (main_bot.py lines 81-87):
lowercase, `re.sub(r'[^\w\s]', '', ...)`, then `' '.join(text.split())`. -/
def normalize_title (title : List Char) : List Char :=
  if title = [] then []
  else
    joinWords (pySplitWs
      ((title.map pyToLower).filter (fun c => isWordChar c || isSpaceCh c)))

theorem pyToLower_eq (c : Char) :
    pyToLower c = ((asciiCase.find? (fun p => p.1 = c)).map Prod.snd).getD c := by
  unfold pyToLower
  cases asciiCase.find? (fun p => p.1 = c) <;> rfl

theorem asciiCase_lower_not_key :
    ∀ p ∈ asciiCase, asciiCase.find? (fun q => q.1 = p.2) = none := by
  decide

theorem asciiCase_classes :
    ∀ p ∈ asciiCase,
      isWordChar p.1 = true ∧ isWordChar p.2 = true ∧
      isSpaceCh p.1 = false ∧ isSpaceCh p.2 = false ∧
      p.1 ≠ '_' ∧ p.2 ≠ '_' := by
  decide

/-- Lowercasing is idempotent on characters. -/
theorem pyToLower_pyToLower (c : Char) : pyToLower (pyToLower c) = pyToLower c := by
  cases h : asciiCase.find? (fun p => p.1 = c) with
  | none =>
    have hc : pyToLower c = c := by rw [pyToLower_eq, h]; rfl
    rw [hc]
    exact hc
  | some p =>
    have hp : pyToLower c = p.2 := by rw [pyToLower_eq, h]; rfl
    have hmem : p ∈ asciiCase := List.mem_of_find?_eq_some h
    have h2 : pyToLower p.2 = p.2 := by
      rw [pyToLower_eq, asciiCase_lower_not_key p hmem]; rfl
    rw [hp, h2]

theorem find?_key_eq {c : Char} {p : Char × Char}
    (h : asciiCase.find? (fun q => q.1 = c) = some p) : p.1 = c := by
  have := List.find?_some h
  simpa using this

/-- Lowercase of a space character is itself. -/
theorem pyToLower_space (c : Char) (h : isSpaceCh c = true) : pyToLower c = c := by
  cases hf : asciiCase.find? (fun p => p.1 = c) with
  | none => rw [pyToLower_eq, hf]; rfl
  | some p =>
    have hmem : p ∈ asciiCase := List.mem_of_find?_eq_some hf
    have hk := find?_key_eq hf
    have := (asciiCase_classes p hmem).2.2.1
    rw [hk, h] at this
    exact absurd this (by simp)

/-- Lowercasing preserves the `\w` class. -/
theorem isWordChar_pyToLower (c : Char) : isWordChar (pyToLower c) = isWordChar c := by
  cases hf : asciiCase.find? (fun p => p.1 = c) with
  | none => rw [pyToLower_eq, hf]; rfl
  | some p =>
    have hmem : p ∈ asciiCase := List.mem_of_find?_eq_some hf
    have hk := find?_key_eq hf
    have hp : pyToLower c = p.2 := by rw [pyToLower_eq, hf]; rfl
    obtain ⟨h1, h2, _⟩ := asciiCase_classes p hmem
    rw [hp, h2, ← hk, h1]

/-- Lowercasing preserves the `\s` class. -/
theorem isSpaceCh_pyToLower (c : Char) : isSpaceCh (pyToLower c) = isSpaceCh c := by
  cases hf : asciiCase.find? (fun p => p.1 = c) with
  | none => rw [pyToLower_eq, hf]; rfl
  | some p =>
    have hmem : p ∈ asciiCase := List.mem_of_find?_eq_some hf
    have hk := find?_key_eq hf
    have hp : pyToLower c = p.2 := by rw [pyToLower_eq, hf]; rfl
    obtain ⟨_, _, h3, h4, _⟩ := asciiCase_classes p hmem
    rw [hp, h4, ← hk, h3]

/-- Splitting an all-nonspace nonempty word alone gives that single word. -/
theorem pySplitWs_word_end :
    ∀ w : List Char, w ≠ [] → (∀ c ∈ w, isSpaceCh c = false) →
      pySplitWs w = [w] := by
  intro w
  induction w with
  | nil => intro h _; exact absurd rfl h
  | cons c w2 ih =>
    intro _ hns
    have hc : isSpaceCh c = false := hns c (by simp)
    match w2 with
    | [] =>
      rw [pySplitWs, if_neg (by simp [hc])]
      rfl
    | d :: w3 =>
      have hd : isSpaceCh d = false := hns d (by simp)
      have ihw : pySplitWs (d :: w3) = [d :: w3] :=
        ih (by simp) (fun x hx => hns x (by simp [hx]))
      rw [pySplitWs, if_neg (by simp [hc]), ihw]
      simp [addCharToSplit, hd]

/-- Splitting a nonspace word followed by a space and a remainder splits off
the word. -/
theorem pySplitWs_word_sep :
    ∀ w r : List Char, w ≠ [] → (∀ c ∈ w, isSpaceCh c = false) →
      pySplitWs (w ++ ' ' :: r) = w :: pySplitWs r := by
  intro w
  induction w with
  | nil => intro r h _; exact absurd rfl h
  | cons c w2 ih =>
    intro r _ hns
    have hc : isSpaceCh c = false := hns c (by simp)
    match w2 with
    | [] =>
      have hsp : pySplitWs (' ' :: r) = pySplitWs r := by
        rw [pySplitWs, if_pos (by decide)]
      show pySplitWs (c :: ' ' :: r) = [c] :: pySplitWs r
      rw [pySplitWs, if_neg (by simp [hc]), hsp]
      cases hr : pySplitWs r with
      | nil => rfl
      | cons w3 ws3 => simp [addCharToSplit, show isSpaceCh ' ' = true from rfl]
    | d :: w3 =>
      have hd : isSpaceCh d = false := hns d (by simp)
      have ihw : pySplitWs ((d :: w3) ++ ' ' :: r) = (d :: w3) :: pySplitWs r :=
        ih r (by simp) (fun x hx => hns x (by simp [hx]))
      show pySplitWs (c :: ((d :: w3) ++ ' ' :: r)) = (c :: d :: w3) :: pySplitWs r
      simp only [List.cons_append] at ihw ⊢
      rw [pySplitWs, if_neg (by simp [hc]), ihw]
      simp [addCharToSplit, hd]

/-- Every word produced by `pySplitWs` is nonempty, whitespace-free,
and made of characters of the input. -/
theorem pySplitWs_sound :
    ∀ s : List Char, ∀ w ∈ pySplitWs s,
      w ≠ [] ∧ (∀ c ∈ w, isSpaceCh c = false) ∧ (∀ c ∈ w, c ∈ s) := by
  intro s
  induction s with
  | nil => intro w hw; simp [pySplitWs] at hw
  | cons c cs ih =>
    intro w hw
    by_cases hc : isSpaceCh c = true
    · rw [pySplitWs, if_pos hc] at hw
      obtain ⟨h1, h2, h3⟩ := ih w hw
      exact ⟨h1, h2, fun x hx => by simp [h3 x hx]⟩
    · have hc2 : isSpaceCh c = false := by simpa using hc
      rw [pySplitWs, if_neg hc] at hw
      match cs, hw with
      | [], hw =>
        have : w = [c] := by
          simpa [pySplitWs, addCharToSplit] using hw
        subst this
        exact ⟨by simp, by simpa using hc2, by simp⟩
      | d :: cs2, hw =>
        cases hps : pySplitWs (d :: cs2) with
        | nil =>
          rw [hps] at hw
          have : w = [c] := by simpa [addCharToSplit] using hw
          subst this
          exact ⟨by simp, by simpa using hc2, by simp⟩
        | cons w2 ws2 =>
          rw [hps] at hw
          simp only [addCharToSplit] at hw
          by_cases hd : isSpaceCh d = true
          · rw [if_pos hd] at hw
            rcases List.mem_cons.mp hw with h | h
            · subst h
              exact ⟨by simp, by simpa using hc2, by simp⟩
            · obtain ⟨h1, h2, h3⟩ := ih w (by rw [hps]; exact h)
              exact ⟨h1, h2, fun x hx => by simp [h3 x hx]⟩
          · rw [if_neg hd] at hw
            rcases List.mem_cons.mp hw with h | h
            · subst h
              obtain ⟨_, h2, h3⟩ := ih w2 (by rw [hps]; simp)
              refine ⟨by simp, ?_, ?_⟩
              · intro x hx
                rcases List.mem_cons.mp hx with h | h
                · subst h; exact hc2
                · exact h2 x h
              · intro x hx
                rcases List.mem_cons.mp hx with h | h
                · subst h; simp
                · simp [h3 x h]
            · obtain ⟨h1, h2, h3⟩ := ih w (by rw [hps]; simp [h])
              exact ⟨h1, h2, fun x hx => by simp [h3 x hx]⟩

/-- Splitting on whitespace of an all-whitespace list gives no words. -/
theorem pySplitWs_all_space :
    ∀ s : List Char, (∀ c ∈ s, isSpaceCh c = true) → pySplitWs s = [] := by
  intro s
  induction s with
  | nil => intro _; rfl
  | cons c cs ih =>
    intro h
    rw [pySplitWs, if_pos (h c (by simp))]
    exact ih (fun x hx => h x (by simp [hx]))

/-- Round trip: splitting a join of nonempty whitespace-free words
recovers the words. -/
theorem pySplitWs_joinWords :
    ∀ ws : List (List Char),
      (∀ w ∈ ws, w ≠ [] ∧ ∀ c ∈ w, isSpaceCh c = false) →
      pySplitWs (joinWords ws) = ws := by
  intro ws
  induction ws with
  | nil => intro _; rfl
  | cons w rest ih =>
    intro h
    obtain ⟨hw, hwc⟩ := h w (by simp)
    match rest with
    | [] => exact pySplitWs_word_end w hw hwc
    | w2 :: rest2 =>
      show pySplitWs (w ++ ' ' :: joinWords (w2 :: rest2)) = w :: w2 :: rest2
      rw [pySplitWs_word_sep w (joinWords (w2 :: rest2)) hw hwc]
      rw [ih (fun x hx => h x (by simp [hx]))]

/-- Characters of a join are characters of the words or the space separator. -/
theorem mem_joinWords :
    ∀ ws : List (List Char), ∀ c ∈ joinWords ws,
      c = ' ' ∨ ∃ w ∈ ws, c ∈ w := by
  intro ws
  induction ws with
  | nil => intro c hc; simp [joinWords] at hc
  | cons w rest ih =>
    intro c hc
    match rest with
    | [] => exact Or.inr ⟨w, by simp, hc⟩
    | w2 :: rest2 =>
      have hc2 : c ∈ w ++ ' ' :: joinWords (w2 :: rest2) := hc
      rcases List.mem_append.mp hc2 with h | h
      · exact Or.inr ⟨w, by simp, h⟩
      · rcases List.mem_cons.mp h with h | h
        · exact Or.inl h
        · rcases ih c h with h1 | ⟨w3, hw3, hc3⟩
          · exact Or.inl h1
          · exact Or.inr ⟨w3, by simp [hw3], hc3⟩

theorem filter_all_eq_self {α : Type} {p : α → Bool} (l : List α)
    (h : ∀ c ∈ l, p c = true) : l.filter p = l := by
  induction l with
  | nil => rfl
  | cons a t ih =>
    have ht := ih (fun x hx => h x (by simp [hx]))
    simp [List.filter_cons, h a (by simp), ht]

theorem filter_false_eq_nil {α : Type} {p : α → Bool} (l : List α)
    (h : ∀ c ∈ l, p c = false) : l.filter p = [] := by
  induction l with
  | nil => rfl
  | cons a t ih =>
    have ht := ih (fun x hx => h x (by simp [hx]))
    simp [List.filter_cons, h a (by simp), ht]

theorem map_id_of_fix (f : Char → Char) (l : List Char)
    (h : ∀ c ∈ l, f c = c) : l.map f = l := by
  induction l with
  | nil => rfl
  | cons a t ih =>
    simp only [List.map_cons, h a (by simp)]
    simp only [List.cons.injEq, true_and]
    exact ih (fun x hx => h x (by simp [hx]))

/-- Every character of a normalized title is a lowered word character
or the single space separator, and the result is a join of clean words. -/
theorem normalize_title_chars (t : List Char) :
    ∀ c ∈ normalize_title t, (isWordChar c = true ∧ pyToLower c = c) ∨ c = ' ' := by
  intro c hc
  unfold normalize_title at hc
  split at hc
  · simp at hc
  · rcases mem_joinWords _ c hc with h | ⟨w, hw, hcw⟩
    · exact Or.inr h
    · obtain ⟨_, hns, hin⟩ := pySplitWs_sound _ w hw
      have hmem := hin c hcw
      have hfl := List.mem_filter.mp hmem
      obtain ⟨hmap, hcls⟩ := hfl
      obtain ⟨a, _, ha⟩ := List.mem_map.mp hmap
      have hlow : pyToLower c = c := by
        rw [← ha, pyToLower_pyToLower]
      have hword : isWordChar c = true := by
        have := hns c hcw
        simp only [Bool.or_eq_true] at hcls
        rcases hcls with h1 | h1
        · exact h1
        · rw [this] at h1; exact absurd h1 (by simp)
      exact Or.inl ⟨hword, hlow⟩

/-- Claim C9: `normalize` is idempotent (and total, being a Lean function). -/
theorem normalize_title_idempotent (s : List Char) :
    normalize_title (normalize_title s) = normalize_title s := by
  set t := normalize_title s with ht
  by_cases hte : t = []
  · rw [hte]; rfl
  · have hchars := normalize_title_chars s
    rw [← ht] at hchars
    unfold normalize_title
    rw [if_neg hte]
    have hmap : t.map pyToLower = t := by
      apply map_id_of_fix
      intro c hc
      rcases hchars c hc with ⟨_, h2⟩ | h2
      · exact h2
      · rw [h2]; rfl
    rw [hmap]
    have hfil : t.filter (fun c => isWordChar c || isSpaceCh c) = t := by
      apply filter_all_eq_self
      intro c hc
      rcases hchars c hc with ⟨h1, _⟩ | h1
      · simp [h1]
      · rw [h1]; rfl
    rw [hfil]
    -- t itself is a join of clean words produced by the first pass
    have : ∃ ws, t = joinWords ws ∧ ∀ w ∈ ws, w ≠ [] ∧ ∀ c ∈ w, isSpaceCh c = false := by
      unfold normalize_title at ht
      split at ht
      · exact absurd ht hte
      · refine ⟨_, ht, ?_⟩
        intro w hw
        obtain ⟨h1, h2, _⟩ := pySplitWs_sound _ w hw
        exact ⟨h1, h2⟩
    obtain ⟨ws, hws, hcl⟩ := this
    rw [hws, pySplitWs_joinWords ws hcl]

/-! Claim C7: the normalizer contract. -/

/-- The normalizer as claim C7 words it: lowercase, remove all characters
that are not alphanumeric or whitespace, collapse whitespace runs to one
space, trim both ends. -/
def normalizeTitleClaimC7 (title : List Char) : List Char :=
  joinWords (pySplitWs
    ((title.map pyToLower).filter (fun c => c.isAlphanum || isSpaceCh c)))

/-- The normalizer as amended: remove all characters that are neither word
characters (alphanumeric or underscore) nor whitespace. -/
def normalizeTitleAmendedC7 (title : List Char) : List Char :=
  joinWords (pySplitWs
    ((title.map pyToLower).filter (fun c => isWordChar c || isSpaceCh c)))

/-- Claim C7 as stated is false: the code's character class is `\w`, which
keeps underscores, while the claim's "alphanumeric" removes them.
On "a_b" the code returns "a_b" but the claim's normalizer returns "ab". -/
theorem normalize_title_c7_counterexample :
    normalize_title ("a_b".data) = "a_b".data ∧
    normalizeTitleClaimC7 ("a_b".data) = "ab".data ∧
    normalize_title ("a_b".data) ≠ normalizeTitleClaimC7 ("a_b".data) := by
  decide

/-- Claim C7 (amended): `normalize` lowercases, removes every character that
is neither a word character (alphanumeric or underscore) nor whitespace,
collapses whitespace runs to a single space and trims both ends; empty or
whitespace-only input yields the empty string; the function is total. -/
theorem normalize_title_spec_c7 :
    (∀ s : List Char, normalize_title s = normalizeTitleAmendedC7 s) ∧
    (∀ s : List Char, (∀ c ∈ s, isSpaceCh c = true) → normalize_title s = []) := by
  constructor
  · intro s
    unfold normalize_title normalizeTitleAmendedC7
    split
    · subst s
      rfl
    · rfl
  · intro s hs
    unfold normalize_title
    split
    · rfl
    · have hall : ∀ c ∈ (s.map pyToLower).filter
          (fun c => isWordChar c || isSpaceCh c), isSpaceCh c = true := by
        intro c hc
        have h1 := List.mem_filter.mp hc
        obtain ⟨a, ha, hae⟩ := List.mem_map.mp h1.1
        rw [← hae, isSpaceCh_pyToLower]
        exact hs a ha
      rw [pySplitWs_all_space _ hall]
      rfl

/-- Witness for C7: whitespace-only input yields the empty string. -/
theorem normalize_title_spec_c7_witness :
    normalize_title ("  ".data) = [] :=
  normalize_title_spec_c7.2 ("  ".data) (by decide)

/-! The significance classifier: response validation
(`evaluate_significance_and_category`, llm_handler.py lines 172-200). -/

/-- JSON values, the shapes `json.loads` can produce. -/
inductive JVal where
  | jnull : JVal
  | jbool : Bool → JVal
  | jnum : Int → JVal
  | jstr : List Char → JVal
  | jarr : List JVal → JVal
  | jobj : List (List Char × JVal) → JVal

/-- Key lookup in a JSON object; Python's `json.loads` keeps the last
binding of a duplicated key. -/
def jlookup (fields : List (List Char × JVal)) (k : List Char) : Option JVal :=
  match fields with
  | [] => none
  | (k2, v) :: rest =>
    match jlookup rest k with
    | some v2 => some v2
    | none => if k2 = k then some v else none

/-- Field access on a parsed response: absent unless the value is an object
holding the key. -/
def jget (resp : Option JVal) (k : List Char) : Option JVal :=
  match resp with
  | some (JVal.jobj fs) => jlookup fs k
  | _ => none

/-- Model of Python `str.strip()`: drop whitespace from both ends. -/
def pyStrip (s : List Char) : List Char :=
  ((s.dropWhile isSpaceCh).reverse.dropWhile isSpaceCh).reverse

/-- ASCII model of Python `str.capitalize()`: first character uppercased,
the rest lowercased. -/
def pyCapitalize (s : List Char) : List Char :=
  match s with
  | [] => []
  | c :: cs => pyToUpper c :: cs.map pyToLower

/-- The keys of `config.CATEGORIES` (config.py lines 50-59). -/
def CATEGORIES : List (List Char) :=
  ["Stocks".data, "Economy".data, "Forex".data, "Crypto".data,
   "Geopolitics".data, "Commodities".data, "General".data, "Unknown".data]

/-- Category normalization (llm_handler.py lines 182-185):
`data.get("category", "Unknown").strip().capitalize()`, coerced to
"General" when the result is not a key of `config.CATEGORIES`. -/
def normCategory (c : List Char) : List Char :=
  if CATEGORIES.contains (pyCapitalize (pyStrip c)) then pyCapitalize (pyStrip c)
  else "General".data

/-- A classifier verdict: the validated dict returned by
`evaluate_significance_and_category`. -/
structure Verdict where
  significant : Bool
  category : List Char
  reason : List Char
deriving DecidableEq

/-- Embedding of the response-validation part of
`evaluate_significance_and_category` (llm_handler.py lines 174-200).
The argument is the outcome of `json.loads` on the collaborator's response
text (`none` when the text is not valid JSON). A `.get` on a non-dict or a
`.strip()` on a non-string reason raises inside the function's broad
`try`/`except`, which returns `None`; those paths are the `none` branches. -/
def evaluate_significance_and_category (resp : Option JVal) : Option Verdict :=
  match resp with
  | some (JVal.jobj fs) =>
    match jlookup fs "significant".data, jlookup fs "category".data with
    | some (JVal.jbool b), some (JVal.jstr c) =>
      match jlookup fs "reason".data with
      | none => some ⟨b, normCategory c, []⟩
      | some (JVal.jstr r) => some ⟨b, normCategory c, pyStrip r⟩
      | some _ => none
    | _, _ => none
  | _ => none

/-- Every normalized category is a key of `config.CATEGORIES`. -/
theorem normCategory_mem (c : List Char) : normCategory c ∈ CATEGORIES := by
  unfold normCategory
  split
  · rename_i h
    simpa using h
  · simp [CATEGORIES]

/-- Claim C4 as stated is false: the response category "stock" capitalizes
to "Stock", which is not a key of `config.CATEGORIES`, so the code coerces
it to "General", not to the "Stocks" member the claim requires. -/
theorem evaluate_category_c4_counterexample :
    evaluate_significance_and_category (some (JVal.jobj
      [("significant".data, JVal.jbool true),
       ("category".data, JVal.jstr "stock".data),
       ("reason".data, JVal.jstr "x".data)])) =
      some ⟨true, "General".data, "x".data⟩ ∧
    ("General".data : List Char) ≠ "Stocks".data := by
  constructor
  · rfl
  · decide

/-- Claim C4 (amended): every successfully parsed verdict's category is a
member of the closed category enum (never the raw string); any value whose
trimmed, capitalized form is not in the enum collapses to General; in
particular the response with category "stock" normalizes to General,
because "Stock" is not an enum member. -/
theorem evaluate_category_c4 :
    (∀ resp v, evaluate_significance_and_category resp = some v →
        v.category ∈ CATEGORIES) ∧
    (∀ c, pyCapitalize (pyStrip c) ∉ CATEGORIES →
        normCategory c = "General".data) ∧
    evaluate_significance_and_category (some (JVal.jobj
      [("significant".data, JVal.jbool true),
       ("category".data, JVal.jstr "stock".data),
       ("reason".data, JVal.jstr "x".data)])) =
      some ⟨true, "General".data, "x".data⟩ := by
  refine ⟨?_, ?_, rfl⟩
  · intro resp v h
    match resp with
    | none => simp [evaluate_significance_and_category] at h
    | some (JVal.jnull) => simp [evaluate_significance_and_category] at h
    | some (JVal.jbool b) => simp [evaluate_significance_and_category] at h
    | some (JVal.jnum n) => simp [evaluate_significance_and_category] at h
    | some (JVal.jstr s) => simp [evaluate_significance_and_category] at h
    | some (JVal.jarr l) => simp [evaluate_significance_and_category] at h
    | some (JVal.jobj fs) =>
      simp only [evaluate_significance_and_category] at h
      split at h
      · split at h
        · cases h
          exact normCategory_mem _
        · cases h
          exact normCategory_mem _
        · exact absurd h (by simp)
      · exact absurd h (by simp)
  · intro c hc
    unfold normCategory
    rw [if_neg (by simpa using hc)]

/-- Witness for C4: the coerced category of "stock" is General, a member of
the enum. -/
theorem evaluate_category_c4_witness :
    ("General".data ∈ CATEGORIES) ∧ normCategory "stock".data = "General".data :=
  ⟨evaluate_category_c4.1 (some (JVal.jobj
      [("significant".data, JVal.jbool true),
       ("category".data, JVal.jstr "stock".data),
       ("reason".data, JVal.jstr "x".data)]))
      ⟨true, "General".data, "x".data⟩ rfl,
   evaluate_category_c4.2.1 "stock".data (by decide)⟩

/-- Claim C6 as stated is false: a response whose `reason` is present but
not a string (here the number 5) also yields Failure, through the raised
`.strip()` caught by the broad handler, even though the response is valid
JSON with a boolean `significant` and a string `category`. -/
theorem evaluate_failure_c6_counterexample :
    ¬ (evaluate_significance_and_category (some (JVal.jobj
          [("significant".data, JVal.jbool true),
           ("category".data, JVal.jstr "Stocks".data),
           ("reason".data, JVal.jnum 5)])) = none ↔
        ((some (JVal.jobj
          [("significant".data, JVal.jbool true),
           ("category".data, JVal.jstr "Stocks".data),
           ("reason".data, JVal.jnum 5)]) : Option JVal) = none ∨
         (¬ ∃ b, jget (some (JVal.jobj
          [("significant".data, JVal.jbool true),
           ("category".data, JVal.jstr "Stocks".data),
           ("reason".data, JVal.jnum 5)])) "significant".data =
            some (JVal.jbool b)) ∨
         (¬ ∃ c, jget (some (JVal.jobj
          [("significant".data, JVal.jbool true),
           ("category".data, JVal.jstr "Stocks".data),
           ("reason".data, JVal.jnum 5)])) "category".data =
            some (JVal.jstr c)))) := by
  intro hiff
  rcases hiff.mp rfl with h | h | h
  · exact absurd h (by simp)
  · exact h ⟨true, rfl⟩
  · exact h ⟨"Stocks".data, rfl⟩

/-- Claim C6 (amended): the classifier returns Failure exactly when the
response text is not valid JSON, or the `significant` field is absent or
not a boolean, or the `category` field is absent or not a string, or the
`reason` field is present but not a string. -/
theorem evaluate_failure_iff_c6 (resp : Option JVal) :
    evaluate_significance_and_category resp = none ↔
      (resp = none ∨
       (¬ ∃ b, jget resp "significant".data = some (JVal.jbool b)) ∨
       (¬ ∃ c, jget resp "category".data = some (JVal.jstr c)) ∨
       (∃ j, jget resp "reason".data = some j ∧ ∀ r, j ≠ JVal.jstr r)) := by
  match resp with
  | none => simp [evaluate_significance_and_category, jget]
  | some (JVal.jnull) => simp [evaluate_significance_and_category, jget]
  | some (JVal.jbool b) => simp [evaluate_significance_and_category, jget]
  | some (JVal.jnum n) => simp [evaluate_significance_and_category, jget]
  | some (JVal.jstr s) => simp [evaluate_significance_and_category, jget]
  | some (JVal.jarr l) => simp [evaluate_significance_and_category, jget]
  | some (JVal.jobj fs) =>
    simp only [evaluate_significance_and_category, jget]
    cases hsig : jlookup fs "significant".data with
    | none => simp [hsig]
    | some jb =>
      cases jb with
      | jbool b =>
        cases hcat : jlookup fs "category".data with
        | none => simp [hsig, hcat]
        | some jc =>
          cases jc with
          | jstr c =>
            cases hr : jlookup fs "reason".data with
            | none => simp [hsig, hcat, hr]
            | some jr =>
              cases jr with
              | jnull => simp [hsig, hcat, hr]
              | jbool b2 => simp [hsig, hcat, hr]
              | jnum n2 => simp [hsig, hcat, hr]
              | jstr r2 => simp [hsig, hcat, hr]
              | jarr l2 => simp [hsig, hcat, hr]
              | jobj o2 => simp [hsig, hcat, hr]
          | jnull => simp [hsig, hcat]
          | jbool b2 => simp [hsig, hcat]
          | jnum n2 => simp [hsig, hcat]
          | jarr l2 => simp [hsig, hcat]
          | jobj o2 => simp [hsig, hcat]
      | jnull => simp [hsig]
      | jnum n2 => simp [hsig]
      | jstr s2 => simp [hsig]
      | jarr l2 => simp [hsig]
      | jobj o2 => simp [hsig]

/-- Witness for C6: a response missing the `category` key yields Failure. -/
theorem evaluate_failure_iff_c6_witness :
    evaluate_significance_and_category (some (JVal.jobj
      [("significant".data, JVal.jbool true),
       ("reason".data, JVal.jstr "x".data)])) = none :=
  (evaluate_failure_iff_c6 (some (JVal.jobj
      [("significant".data, JVal.jbool true),
       ("reason".data, JVal.jstr "x".data)]))).mpr
    (Or.inr (Or.inr (Or.inl (by intro hc; rcases hc with ⟨c, hc⟩; cases hc))))

/-- Claim C10: with a boolean `significant` and a string `category`, an
absent `reason` key still succeeds and yields the empty-string reason,
and a present string `reason` is returned whitespace-trimmed. -/
theorem evaluate_reason_c10 :
    (∀ fs b c, jlookup fs "significant".data = some (JVal.jbool b) →
       jlookup fs "category".data = some (JVal.jstr c) →
       jlookup fs "reason".data = none →
       evaluate_significance_and_category (some (JVal.jobj fs)) =
         some ⟨b, normCategory c, []⟩) ∧
    (∀ fs b c r, jlookup fs "significant".data = some (JVal.jbool b) →
       jlookup fs "category".data = some (JVal.jstr c) →
       jlookup fs "reason".data = some (JVal.jstr r) →
       evaluate_significance_and_category (some (JVal.jobj fs)) =
         some ⟨b, normCategory c, pyStrip r⟩) := by
  constructor
  · intro fs b c h1 h2 h3
    simp [evaluate_significance_and_category, h1, h2, h3]
  · intro fs b c r h1 h2 h3
    simp [evaluate_significance_and_category, h1, h2, h3]

/-- Witness for C10: concrete responses with and without a `reason` key. -/
theorem evaluate_reason_c10_witness :
    evaluate_significance_and_category (some (JVal.jobj
      [("significant".data, JVal.jbool true),
       ("category".data, JVal.jstr "Economy".data)])) =
      some ⟨true, normCategory "Economy".data, []⟩ ∧
    evaluate_significance_and_category (some (JVal.jobj
      [("significant".data, JVal.jbool false),
       ("category".data, JVal.jstr "Economy".data),
       ("reason".data, JVal.jstr " ok ".data)])) =
      some ⟨false, normCategory "Economy".data, pyStrip " ok ".data⟩ :=
  ⟨evaluate_reason_c10.1 [("significant".data, JVal.jbool true),
       ("category".data, JVal.jstr "Economy".data)] true "Economy".data
       rfl rfl rfl,
   evaluate_reason_c10.2 [("significant".data, JVal.jbool false),
       ("category".data, JVal.jstr "Economy".data),
       ("reason".data, JVal.jstr " ok ".data)] false "Economy".data
       " ok ".data rfl rfl rfl⟩

/-! The orchestrator's keyword boost and publish decision for one new
headline (main_bot.py lines 162-254). -/

/-- Model of Python's substring test `pat in s`. -/
def containsSubstr (s pat : List Char) : Bool :=
  if pat.isPrefixOf s then true
  else
    match s with
    | [] => false
    | _ :: rest => containsSubstr rest pat

/-- The keyword check (main_bot.py lines 163-168): some configured keyword
occurs in the lowercased raw title. `config.USER_KEYWORDS` entries are
already lowercased by config.py line 26. -/
def keywordBoost (keywords : List (List Char)) (title : List Char) : Bool :=
  keywords.any (fun k => containsSubstr (title.map pyToLower) k)

/-- The category the orchestrator publishes (main_bot.py lines 178-183):
when the keyword boost overrides a non-significant verdict, an empty or
"Unknown" category is replaced by "General". -/
def finalCategory (boost : Bool) (v : Verdict) : List Char :=
  if boost && !v.significant then
    (if v.category = [] ∨ v.category = "Unknown".data then "General".data
     else v.category)
  else v.category

/-- A published payload (the embed of main_bot.py lines 208-219, restricted
to the fields the claims concern). -/
structure Post where
  title : List Char
  translated : List Char
  category : List Char
deriving DecidableEq

/-- Embedding of the per-headline classify/boost/translate/publish decision
(main_bot.py lines 162-254) for a headline that passed dedup. `evalResult`
is the classifier outcome (`none` = LLM evaluation failed), `translation`
the translator outcome consulted only for significant headlines. Returns
the published payload or `none` when nothing is posted. -/
def processNewHeadline (keywords : List (List Char)) (title : List Char)
    (evalResult : Option Verdict) (translation : Option (List Char)) :
    Option Post :=
  match evalResult with
  | none => none
  | some v =>
    if v.significant || keywordBoost keywords title then
      match translation with
      | some g => some ⟨title, g, finalCategory (keywordBoost keywords title) v⟩
      | none => none
    else none

/-- Claim C3 as stated is false: for a keyword-matching headline whose
classifier evaluation failed, the code logs and skips (main_bot.py lines
251-254); nothing is published, while the claim requires a publish with
category General. -/
theorem keyword_publish_c3_counterexample :
    keywordBoost ["fed".data] "Fed cuts rates".data = true ∧
    processNewHeadline ["fed".data] "Fed cuts rates".data none
      (some "gk".data) = none := by
  constructor
  · decide
  · rfl

/-- Claim C3 (amended): a headline whose raw title contains a configured
keyword as a case-insensitive substring is forced significant whenever the
classifier returned a verdict, and (with a successful translation) is
published regardless of the verdict's significance flag, with category
defaulted to General when the verdict was non-significant and its category
was empty or Unknown; when the classifier failed, it is not published. -/
theorem keyword_publish_c3 (keywords : List (List Char)) (title g : List Char)
    (v : Verdict) (hb : keywordBoost keywords title = true) :
    (processNewHeadline keywords title (some v) (some g) =
      some ⟨title, g,
        if v.significant = false ∧ (v.category = [] ∨ v.category = "Unknown".data)
        then "General".data else v.category⟩) ∧
    processNewHeadline keywords title none (some g) = none := by
  constructor
  · unfold processNewHeadline finalCategory
    rw [hb]
    by_cases hv : v.significant = true
    · simp [hv]
    · have hv2 : v.significant = false := by simpa using hv
      have hiff : (v.significant = false ∧
          (v.category = [] ∨ v.category = "Unknown".data)) ↔
          (v.category = [] ∨ v.category = "Unknown".data) := by simp [hv2]
      rw [if_congr hiff rfl rfl]
      simp [hv2]
  · rfl

/-- Witness for C3: the keyword "fed" matches, the classifier verdict is
non-significant with category Unknown, translation succeeds, and the
published category is General; with a failed classifier nothing is
published. -/
theorem keyword_publish_c3_witness :
    processNewHeadline ["fed".data] "Fed cuts rates".data
      (some ⟨false, "Unknown".data, "r".data⟩) (some "gk".data) =
      some ⟨"Fed cuts rates".data, "gk".data, "General".data⟩ ∧
    processNewHeadline ["fed".data] "Fed cuts rates".data none
      (some "gk".data) = none := by
  have h := keyword_publish_c3 ["fed".data] "Fed cuts rates".data "gk".data
    ⟨false, "Unknown".data, "r".data⟩ (by decide)
  refine ⟨?_, h.2⟩
  rw [h.1]
  simp

/-! The fuzzy similarity score: model of `thefuzz.fuzz.token_set_ratio`
(delegating to rapidfuzz): preprocess each string (lowercase, replace
non-alphanumeric characters by whitespace, split into tokens), take the
sorted unique token sets, build the joined intersection and the two joined
intersection-plus-difference strings, and return the maximum of the three
pairwise indel similarities (rounded to 0-100); when either processed
string has no tokens the score is 0. -/

/-- Indel (insertion/deletion) distance with explicit fuel so the kernel
can evaluate it; the fuel is always sufficient at `a.length + b.length`. -/
def indelDistF : Nat → List Char → List Char → Nat
  | _, [], ys => ys.length
  | _, x :: xs, [] => (x :: xs).length
  | 0, xs, ys => xs.length + ys.length
  | fuel + 1, x :: xs, y :: ys =>
    if x = y then indelDistF fuel xs ys
    else 1 + min (indelDistF fuel xs (y :: ys)) (indelDistF fuel (x :: xs) ys)

/-- Indel distance between two strings. -/
def indelDist (a b : List Char) : Nat :=
  indelDistF (a.length + b.length) a b

/-- Normalized indel similarity on a 0-100 scale, rounded to nearest. -/
def indelRatio (a b : List Char) : Nat :=
  let lensum := a.length + b.length
  if lensum = 0 then 100
  else (200 * (lensum - indelDist a b) + lensum) / (2 * lensum)

/-- Tokenization used by the fuzzy preprocessor: lowercase, replace every
non-alphanumeric character by a space, split on whitespace. -/
def fpTokens (s : List Char) : List (List Char) :=
  pySplitWs (s.map (fun c => if c.isAlphanum then pyToLower c else ' '))

/-- Lexicographic comparison of strings, as Python `sorted` uses. -/
def lexLe : List Char → List Char → Bool
  | [], _ => true
  | _ :: _, [] => false
  | a :: as, b :: bs => if a = b then lexLe as bs else decide (a < b)

def insertSorted (x : List Char) : List (List Char) → List (List Char)
  | [] => [x]
  | y :: ys => if lexLe x y then x :: y :: ys else y :: insertSorted x ys

def sortTokens (l : List (List Char)) : List (List Char) :=
  l.foldr insertSorted []

/-- Duplicate removal (the `set(...)` step), keeping one copy per token. -/
def dedupTokens : List (List Char) → List (List Char)
  | [] => []
  | t :: ts => if ts.contains t then dedupTokens ts else t :: dedupTokens ts

/-- The sorted unique token set of a string after fuzzy preprocessing. -/
def tokenSet (s : List Char) : List (List Char) :=
  sortTokens (dedupTokens (fpTokens s))

/-- Model of `fuzz.token_set_ratio`. -/
def token_set_ratio (a b : List Char) : Nat :=
  let ta := tokenSet a
  let tb := tokenSet b
  if ta.isEmpty || tb.isEmpty then 0
  else
    let sect := ta.filter (fun t => tb.contains t)
    let dab := ta.filter (fun t => !tb.contains t)
    let dba := tb.filter (fun t => !ta.contains t)
    let s0 := joinWords sect
    let s1 := joinWords (sect ++ dab)
    let s2 := joinWords (sect ++ dba)
    max (indelRatio s0 s1) (max (indelRatio s0 s2) (indelRatio s1 s2))

/-! The dedup engine state (main_bot.py lines 39-43 and 112-159). -/

/-- A bounded FIFO window: model of `collections.deque(maxlen=cap)`.
Appending to a full deque evicts the oldest (leftmost) entry. -/
structure BDeque where
  cap : Nat
  items : List (List Char)
deriving DecidableEq

/-- `deque.append`: append on the right, evicting on the left at capacity. -/
def dqAppend (d : BDeque) (x : List Char) : BDeque :=
  ⟨d.cap, (d.items ++ [x]).drop (d.items.length + 1 - d.cap)⟩

/-- The dedup state: the per-cycle transient id set `cycle_processed_ids`,
the exact-id window `seen_headlines` and the fuzzy-title window
`seen_normalized_titles`. -/
structure DedupState where
  cycleIds : List (List Char)
  seenHeadlines : BDeque
  seenTitles : BDeque
deriving DecidableEq

/-- The dedup classification of one incoming headline. -/
inductive DedupOutcome where
  | skippedInCycle : DedupOutcome
  | dupFuzzyTitle : DedupOutcome
  | dupExactId : DedupOutcome
  | fresh : DedupOutcome
deriving DecidableEq

/-- `config.FUZZY_MATCH_THRESHOLD` (config.py line 27). -/
def FUZZY_MATCH_THRESHOLD : Nat := 88

/-- `MAX_SEEN_HEADLINES` and `MAX_SEEN_TITLES` with empty windows and an
empty cycle set (main_bot.py lines 39-43, 112). -/
def initialState : DedupState :=
  ⟨[], ⟨1000, []⟩, ⟨200, []⟩⟩

/-- Embedding of the dedup steps of `check_news_task` (main_bot.py lines
119-159) for one incoming headline: (1) skip ids already seen this cycle,
otherwise record the id in the cycle set; (2) fuzzy-match the nonempty
normalized title against the title window, on a hit ensure the id is in the
exact-id window; (3) on an exact-id hit backfill the nonempty normalized
title when it is not in the title window; (4) otherwise the headline is
new: append the id, and the normalized title when nonempty. -/
def checkAndRecord (threshold : Nat) (st : DedupState)
    (source url title : List Char) : DedupOutcome × DedupState :=
  let uid := source ++ ':' :: url
  let norm := normalize_title title
  if st.cycleIds.contains uid then (.skippedInCycle, st)
  else
    let cyc := st.cycleIds ++ [uid]
    if !norm.isEmpty &&
        st.seenTitles.items.any (fun s => threshold ≤ token_set_ratio norm s) then
      (.dupFuzzyTitle,
       ⟨cyc,
        if st.seenHeadlines.items.contains uid then st.seenHeadlines
        else dqAppend st.seenHeadlines uid,
        st.seenTitles⟩)
    else if st.seenHeadlines.items.contains uid then
      (.dupExactId,
       ⟨cyc,
        st.seenHeadlines,
        if !norm.isEmpty && !st.seenTitles.items.contains norm
        then dqAppend st.seenTitles norm else st.seenTitles⟩)
    else
      (.fresh,
       ⟨cyc,
        dqAppend st.seenHeadlines uid,
        if norm.isEmpty then st.seenTitles else dqAppend st.seenTitles norm⟩)

/-- The dedup step as claim C1 words it, differing from the code only in
step 3, where the claim backfills the normalized title whenever it is not
already in the fuzzy window, with no non-emptiness condition. -/
def checkAndRecordClaimC1 (threshold : Nat) (st : DedupState)
    (source url title : List Char) : DedupOutcome × DedupState :=
  let uid := source ++ ':' :: url
  let norm := normalize_title title
  if st.cycleIds.contains uid then (.skippedInCycle, st)
  else
    let cyc := st.cycleIds ++ [uid]
    if !norm.isEmpty &&
        st.seenTitles.items.any (fun s => threshold ≤ token_set_ratio norm s) then
      (.dupFuzzyTitle,
       ⟨cyc,
        if st.seenHeadlines.items.contains uid then st.seenHeadlines
        else dqAppend st.seenHeadlines uid,
        st.seenTitles⟩)
    else if st.seenHeadlines.items.contains uid then
      (.dupExactId,
       ⟨cyc,
        st.seenHeadlines,
        if !st.seenTitles.items.contains norm
        then dqAppend st.seenTitles norm else st.seenTitles⟩)
    else
      (.fresh,
       ⟨cyc,
        dqAppend st.seenHeadlines uid,
        if norm.isEmpty then st.seenTitles else dqAppend st.seenTitles norm⟩)

/-- Running the dedup step over a list of `(source, url, title)` inputs. -/
def runDedup (threshold : Nat) (st : DedupState)
    (hs : List (List Char × List Char × List Char)) : DedupState :=
  hs.foldl (fun st h => (checkAndRecord threshold st h.1 h.2.1 h.2.2).2) st

/-- Claim C1 as stated is false at step 3: for a title made only of
punctuation (empty normalized form) whose id is already in the exact-id
window, the claim's unconditional backfill adds the empty title to the
fuzzy window while the code's guard (main_bot.py line 151) does not. -/
theorem dedup_step_c1_counterexample :
    checkAndRecordClaimC1 88 ⟨[], ⟨1000, ["s:u".data]⟩, ⟨200, []⟩⟩
        "s".data "u".data "!!!".data ≠
      checkAndRecord 88 ⟨[], ⟨1000, ["s:u".data]⟩, ⟨200, []⟩⟩
        "s".data "u".data "!!!".data := by
  decide

/-- Claim C1 (amended): the dedup check runs in strict order with
short-circuit: (1) skip when the id was observed in this cycle; (2) else a
nonempty normalized title scoring at or above the threshold against some
fuzzy-window entry is a fuzzy duplicate, the id is recorded into the
exact-id window (if not present) and the title is not added; (3) else an id
in the exact-id window is an exact duplicate, and the normalized title is
backfilled when it is nonempty and not already in the fuzzy window; (4)
else the headline is new, the id is appended and the nonempty normalized
title is appended. -/
theorem dedup_step_c1 (threshold : Nat) (st : DedupState)
    (source url title : List Char) :
    (st.cycleIds.contains (source ++ ':' :: url) = true →
       checkAndRecord threshold st source url title = (.skippedInCycle, st)) ∧
    (st.cycleIds.contains (source ++ ':' :: url) = false →
       normalize_title title ≠ [] →
       (∃ s ∈ st.seenTitles.items,
          threshold ≤ token_set_ratio (normalize_title title) s) →
       checkAndRecord threshold st source url title =
         (.dupFuzzyTitle,
          ⟨st.cycleIds ++ [source ++ ':' :: url],
           if st.seenHeadlines.items.contains (source ++ ':' :: url)
           then st.seenHeadlines
           else dqAppend st.seenHeadlines (source ++ ':' :: url),
           st.seenTitles⟩)) ∧
    (st.cycleIds.contains (source ++ ':' :: url) = false →
       (normalize_title title = [] ∨
        ∀ s ∈ st.seenTitles.items,
          token_set_ratio (normalize_title title) s < threshold) →
       st.seenHeadlines.items.contains (source ++ ':' :: url) = true →
       checkAndRecord threshold st source url title =
         (.dupExactId,
          ⟨st.cycleIds ++ [source ++ ':' :: url],
           st.seenHeadlines,
           if normalize_title title ≠ [] ∧
              st.seenTitles.items.contains (normalize_title title) = false
           then dqAppend st.seenTitles (normalize_title title)
           else st.seenTitles⟩)) ∧
    (st.cycleIds.contains (source ++ ':' :: url) = false →
       (normalize_title title = [] ∨
        ∀ s ∈ st.seenTitles.items,
          token_set_ratio (normalize_title title) s < threshold) →
       st.seenHeadlines.items.contains (source ++ ':' :: url) = false →
       checkAndRecord threshold st source url title =
         (.fresh,
          ⟨st.cycleIds ++ [source ++ ':' :: url],
           dqAppend st.seenHeadlines (source ++ ':' :: url),
           if normalize_title title = [] then st.seenTitles
           else dqAppend st.seenTitles (normalize_title title)⟩)) := by
  refine ⟨?_, ?_, ?_, ?_⟩
  · intro h1
    unfold checkAndRecord
    rw [if_pos h1]
  · intro h1 h2 h3
    unfold checkAndRecord
    rw [if_neg (by simpa using h1)]
    have hgate : (!(normalize_title title).isEmpty &&
        st.seenTitles.items.any
          (fun s => threshold ≤ token_set_ratio (normalize_title title) s)) =
          true := by
      simp only [Bool.and_eq_true, Bool.not_eq_true']
      constructor
      · simpa [List.isEmpty_iff] using h2
      · simp only [List.any_eq_true, decide_eq_true_eq]
        exact h3
    rw [if_pos hgate]
  · intro h1 h2 h3
    unfold checkAndRecord
    rw [if_neg (by simpa using h1)]
    have hgate : (!(normalize_title title).isEmpty &&
        st.seenTitles.items.any
          (fun s => threshold ≤ token_set_ratio (normalize_title title) s)) =
          false := by
      rcases h2 with h2 | h2
      · simp [h2]
      · simp only [Bool.and_eq_false_iff]
        right
        simp only [List.any_eq_false, decide_eq_true_eq]
        intro s hs
        exact Nat.not_le.mpr (h2 s hs)
    rw [if_neg (by simp [hgate]), if_pos h3]
    have hif : (!(normalize_title title).isEmpty &&
          !st.seenTitles.items.contains (normalize_title title)) = true ↔
        (normalize_title title ≠ [] ∧
          st.seenTitles.items.contains (normalize_title title) = false) := by
      simp [List.isEmpty_iff]
    rw [if_congr hif rfl rfl]
  · intro h1 h2 h3
    unfold checkAndRecord
    rw [if_neg (by simpa using h1)]
    have hgate : (!(normalize_title title).isEmpty &&
        st.seenTitles.items.any
          (fun s => threshold ≤ token_set_ratio (normalize_title title) s)) =
          false := by
      rcases h2 with h2 | h2
      · simp [h2]
      · simp only [Bool.and_eq_false_iff]
        right
        simp only [List.any_eq_false, decide_eq_true_eq]
        intro s hs
        exact Nat.not_le.mpr (h2 s hs)
    rw [if_neg (by simp [hgate]), if_neg (by simpa using h3)]
    have hif : (normalize_title title).isEmpty = true ↔
        normalize_title title = [] := by
      simp [List.isEmpty_iff]
    rw [if_congr hif rfl rfl]

/-- Witness for C1: the four branches at concrete states - an intra-cycle
skip, a fuzzy duplicate, an exact duplicate with backfill, and a new
headline. -/
theorem dedup_step_c1_witness :
    checkAndRecord 88 ⟨["s:u".data], ⟨1000, []⟩, ⟨200, []⟩⟩
        "s".data "u".data "t".data =
      (.skippedInCycle, ⟨["s:u".data], ⟨1000, []⟩, ⟨200, []⟩⟩) ∧
    checkAndRecord 88 ⟨[], ⟨1000, []⟩, ⟨200, ["fed rates".data]⟩⟩
        "s".data "u".data "Fed, Rates!".data =
      (.dupFuzzyTitle,
       ⟨["s:u".data], ⟨1000, ["s:u".data]⟩, ⟨200, ["fed rates".data]⟩⟩) ∧
    checkAndRecord 88 ⟨[], ⟨1000, ["s:u".data]⟩, ⟨200, []⟩⟩
        "s".data "u".data "Hello".data =
      (.dupExactId,
       ⟨["s:u".data], ⟨1000, ["s:u".data]⟩, ⟨200, ["hello".data]⟩⟩) ∧
    checkAndRecord 88 initialState "s".data "u".data "Hello".data =
      (.fresh,
       ⟨["s:u".data], ⟨1000, ["s:u".data]⟩, ⟨200, ["hello".data]⟩⟩) := by
  refine ⟨?_, ?_, ?_, ?_⟩
  · exact (dedup_step_c1 88 ⟨["s:u".data], ⟨1000, []⟩, ⟨200, []⟩⟩
      "s".data "u".data "t".data).1 (by decide)
  · have h := (dedup_step_c1 88 ⟨[], ⟨1000, []⟩, ⟨200, ["fed rates".data]⟩⟩
      "s".data "u".data "Fed, Rates!".data).2.1 (by decide) (by decide)
      ⟨"fed rates".data, by decide, by decide⟩
    rw [h]
    decide
  · have h := (dedup_step_c1 88 ⟨[], ⟨1000, ["s:u".data]⟩, ⟨200, []⟩⟩
      "s".data "u".data "Hello".data).2.2.1 (by decide)
      (Or.inr (by intro s hs; cases hs)) (by decide)
    rw [h]
    decide
  · have h := (dedup_step_c1 88 initialState
      "s".data "u".data "Hello".data).2.2.2 (by decide)
      (Or.inr (by intro s hs; cases hs)) (by decide)
    rw [h]
    decide

/-! Claim C5: bounded FIFO windows. -/

theorem dqAppend_cap (d : BDeque) (x : List Char) : (dqAppend d x).cap = d.cap :=
  rfl

theorem dqAppend_length_le (d : BDeque) (x : List Char) :
    (dqAppend d x).items.length ≤ d.cap := by
  show ((d.items ++ [x]).drop (d.items.length + 1 - d.cap)).length ≤ d.cap
  rw [List.length_drop, List.length_append]
  simp only [List.length_cons, List.length_nil]
  omega

/-- Both windows hold no more entries than their capacities. -/
def boundedState (st : DedupState) : Prop :=
  st.seenHeadlines.items.length ≤ st.seenHeadlines.cap ∧
  st.seenTitles.items.length ≤ st.seenTitles.cap

theorem checkAndRecord_bounded (threshold : Nat) (st : DedupState)
    (source url title : List Char) (h : boundedState st) :
    boundedState (checkAndRecord threshold st source url title).2 ∧
    (checkAndRecord threshold st source url title).2.seenHeadlines.cap =
      st.seenHeadlines.cap ∧
    (checkAndRecord threshold st source url title).2.seenTitles.cap =
      st.seenTitles.cap := by
  obtain ⟨h1, h2⟩ := h
  by_cases hcy : st.cycleIds.contains (source ++ ':' :: url) = true
  · unfold checkAndRecord
    rw [if_pos hcy]
    exact ⟨⟨h1, h2⟩, rfl, rfl⟩
  · unfold checkAndRecord
    rw [if_neg hcy]
    by_cases hfz : (!(normalize_title title).isEmpty &&
        st.seenTitles.items.any
          (fun s => threshold ≤ token_set_ratio (normalize_title title) s)) = true
    · rw [if_pos hfz]
      refine ⟨⟨?_, h2⟩, ?_, rfl⟩
      · split
        · exact h1
        · exact dqAppend_length_le _ _
      · split <;> rfl
    · rw [if_neg hfz]
      by_cases hex : st.seenHeadlines.items.contains (source ++ ':' :: url) = true
      · rw [if_pos hex]
        refine ⟨⟨h1, ?_⟩, rfl, ?_⟩
        · split
          · exact dqAppend_length_le _ _
          · exact h2
        · split <;> rfl
      · rw [if_neg hex]
        refine ⟨⟨dqAppend_length_le _ _, ?_⟩, rfl, ?_⟩
        · split
          · exact h2
          · exact dqAppend_length_le _ _
        · split <;> rfl

theorem runDedup_bounded (threshold : Nat)
    (hs : List (List Char × List Char × List Char)) :
    ∀ st : DedupState, boundedState st →
      boundedState (runDedup threshold st hs) ∧
      (runDedup threshold st hs).seenHeadlines.cap = st.seenHeadlines.cap ∧
      (runDedup threshold st hs).seenTitles.cap = st.seenTitles.cap := by
  induction hs with
  | nil => intro st h; exact ⟨h, rfl, rfl⟩
  | cons hd tl ih =>
    intro st h
    obtain ⟨hb, hc1, hc2⟩ :=
      checkAndRecord_bounded threshold st hd.1 hd.2.1 hd.2.2 h
    obtain ⟨ihb, ihc1, ihc2⟩ :=
      ih (checkAndRecord threshold st hd.1 hd.2.1 hd.2.2).2 hb
    refine ⟨ihb, ?_, ?_⟩
    · rw [show runDedup threshold st (hd :: tl) =
        runDedup threshold (checkAndRecord threshold st hd.1 hd.2.1 hd.2.2).2 tl
        from rfl]
      rw [ihc1, hc1]
    · rw [show runDedup threshold st (hd :: tl) =
        runDedup threshold (checkAndRecord threshold st hd.1 hd.2.1 hd.2.2).2 tl
        from rfl]
      rw [ihc2, hc2]

/-- A dedup step on an empty title with an unseen id is always `fresh` and
only appends the id. -/
theorem step_empty_title_fresh (threshold : Nat) (st : DedupState)
    (source url : List Char)
    (h1 : st.cycleIds.contains (source ++ ':' :: url) = false)
    (h3 : st.seenHeadlines.items.contains (source ++ ':' :: url) = false) :
    checkAndRecord threshold st source url [] =
      (.fresh,
       ⟨st.cycleIds ++ [source ++ ':' :: url],
        dqAppend st.seenHeadlines (source ++ ':' :: url),
        st.seenTitles⟩) := by
  unfold checkAndRecord
  rw [if_neg (by simpa using h1)]
  rw [if_neg (by simp [show normalize_title [] = [] from rfl])]
  rw [if_neg (by simpa using h3)]
  simp [show normalize_title [] = [] from rfl]

theorem dqAppend_drop (L : List (List Char)) (N : Nat) (x : List Char)
    (hN : 0 < N) :
    dqAppend ⟨N, L.drop (L.length - N)⟩ x =
      ⟨N, (L ++ [x]).drop (L.length + 1 - N)⟩ := by
  unfold dqAppend
  simp only [BDeque.mk.injEq, true_and]
  rw [List.length_drop]
  by_cases h : L.length < N
  · have e1 : L.length - N = 0 := by omega
    have e3 : L.length + 1 - N = 0 := by omega
    rw [e1, show L.length - 0 + 1 - N = 0 from by omega, e3,
      List.drop_zero, List.drop_zero, List.drop_zero]
  · have hNle : N ≤ L.length := by omega
    have e2 : L.length - (L.length - N) + 1 - N = 1 := by omega
    rw [e2]
    have hd1 : (L.drop (L.length - N) ++ [x]).drop 1 =
        (L.drop (L.length - N)).drop 1 ++ [x] := by
      apply List.drop_append_of_le_length
      rw [List.length_drop]
      omega
    rw [hd1, List.drop_drop]
    rw [show L.length - N + 1 = L.length + 1 - N from by omega]
    rw [List.drop_append_of_le_length (by omega)]

theorem runDedup_distinct_empty (threshold N : Nat) (src : List Char)
    (hN : 0 < N) :
    ∀ (urls done : List (List Char)),
      ((done ++ urls).map (fun u => src ++ ':' :: u)).Nodup →
      runDedup threshold
        ⟨done.map (fun u => src ++ ':' :: u),
         ⟨N, (done.map (fun u => src ++ ':' :: u)).drop (done.length - N)⟩,
         ⟨200, []⟩⟩
        (urls.map (fun u => (src, u, ([] : List Char)))) =
      ⟨(done ++ urls).map (fun u => src ++ ':' :: u),
       ⟨N, ((done ++ urls).map (fun u => src ++ ':' :: u)).drop
             ((done ++ urls).length - N)⟩,
       ⟨200, []⟩⟩ := by
  intro urls
  induction urls with
  | nil =>
    intro done h
    simp [runDedup]
  | cons u rest ih =>
    intro done hnd
    have hu_not_done : (src ++ ':' :: u) ∉ done.map (fun v => src ++ ':' :: v) := by
      intro hmem
      have hsplit : ((done ++ u :: rest).map (fun v => src ++ ':' :: v)) =
          done.map (fun v => src ++ ':' :: v) ++
          (src ++ ':' :: u) :: rest.map (fun v => src ++ ':' :: v) := by
        simp
      rw [hsplit] at hnd
      have hdisj := List.disjoint_of_nodup_append hnd
      exact hdisj hmem (by simp)
    have hcyc : (done.map (fun v => src ++ ':' :: v)).contains
        (src ++ ':' :: u) = false := by
      simpa using hu_not_done
    have hseen : ((done.map (fun v => src ++ ':' :: v)).drop
        (done.length - N)).contains (src ++ ':' :: u) = false := by
      have hx : (src ++ ':' :: u) ∉
          (done.map (fun v => src ++ ':' :: v)).drop (done.length - N) :=
        fun hmem => hu_not_done (List.mem_of_mem_drop hmem)
      simpa using hx
    have hstep := step_empty_title_fresh threshold
      ⟨done.map (fun v => src ++ ':' :: v),
       ⟨N, (done.map (fun v => src ++ ':' :: v)).drop (done.length - N)⟩,
       ⟨200, []⟩⟩ src u hcyc hseen
    have hfold : runDedup threshold
        ⟨done.map (fun v => src ++ ':' :: v),
         ⟨N, (done.map (fun v => src ++ ':' :: v)).drop (done.length - N)⟩,
         ⟨200, []⟩⟩
        ((u :: rest).map (fun v => (src, v, ([] : List Char)))) =
        runDedup threshold
          (checkAndRecord threshold
            ⟨done.map (fun v => src ++ ':' :: v),
             ⟨N, (done.map (fun v => src ++ ':' :: v)).drop (done.length - N)⟩,
             ⟨200, []⟩⟩ src u []).2
          (rest.map (fun v => (src, v, ([] : List Char)))) := rfl
    rw [hfold, hstep]
    have hdq := dqAppend_drop (done.map (fun v => src ++ ':' :: v)) N
      (src ++ ':' :: u) hN
    have hlen : (done.map (fun v => src ++ ':' :: v)).length = done.length := by
      simp
    rw [hlen] at hdq
    have hshape :
        (⟨done.map (fun v => src ++ ':' :: v) ++ [src ++ ':' :: u],
          dqAppend ⟨N, (done.map (fun v => src ++ ':' :: v)).drop
            (done.length - N)⟩ (src ++ ':' :: u),
          ⟨200, []⟩⟩ : DedupState) =
        ⟨(done ++ [u]).map (fun v => src ++ ':' :: v),
         ⟨N, ((done ++ [u]).map (fun v => src ++ ':' :: v)).drop
           ((done ++ [u]).length - N)⟩,
         ⟨200, []⟩⟩ := by
      rw [hdq]
      simp
    rw [hshape]
    have hassoc : done ++ u :: rest = (done ++ [u]) ++ rest := by simp
    rw [hassoc] at hnd ⊢
    exact ih (done ++ [u]) hnd

/-- Claim C5: the exact-id window never exceeds 1000 entries and the
fuzzy-title window never exceeds 200 over any run; a full window evicts its
oldest entry on append; after inserting N+1 distinct ids into an exact-id
window of capacity N, the earliest id is gone from the window and is
classified as new again. -/
theorem dedup_windows_c5 :
    (∀ (threshold : Nat) (hs : List (List Char × List Char × List Char)),
       (runDedup threshold initialState hs).seenHeadlines.items.length ≤ 1000 ∧
       (runDedup threshold initialState hs).seenTitles.items.length ≤ 200) ∧
    (∀ (d : BDeque) (x : List Char), d.items.length = d.cap → 0 < d.cap →
       (dqAppend d x).items = d.items.tail ++ [x]) ∧
    (∀ (threshold N : Nat) (src u0 : List Char) (rest : List (List Char)),
       0 < N → rest.length = N →
       ((u0 :: rest).map (fun u => src ++ ':' :: u)).Nodup →
       (src ++ ':' :: u0) ∉
         (runDedup threshold ⟨[], ⟨N, []⟩, ⟨200, []⟩⟩
           ((u0 :: rest).map (fun u => (src, u, ([] : List Char))))).seenHeadlines.items ∧
       (checkAndRecord threshold
          ⟨[],
           (runDedup threshold ⟨[], ⟨N, []⟩, ⟨200, []⟩⟩
             ((u0 :: rest).map (fun u => (src, u, ([] : List Char))))).seenHeadlines,
           (runDedup threshold ⟨[], ⟨N, []⟩, ⟨200, []⟩⟩
             ((u0 :: rest).map (fun u => (src, u, ([] : List Char))))).seenTitles⟩
          src u0 []).1 = .fresh) := by
  refine ⟨?_, ?_, ?_⟩
  · intro threshold hs
    have h := runDedup_bounded threshold hs initialState
      ⟨by simp [initialState], by simp [initialState]⟩
    obtain ⟨⟨hb1, hb2⟩, hc1, hc2⟩ := h
    constructor
    · rw [← show (runDedup threshold initialState hs).seenHeadlines.cap = 1000
        from hc1]
      exact hb1
    · rw [← show (runDedup threshold initialState hs).seenTitles.cap = 200
        from hc2]
      exact hb2
  · intro d x hfull hpos
    show (d.items ++ [x]).drop (d.items.length + 1 - d.cap) =
      d.items.tail ++ [x]
    rw [hfull, show d.cap + 1 - d.cap = 1 from by omega]
    cases hitems : d.items with
    | nil =>
      rw [hitems] at hfull
      simp at hfull
      omega
    | cons a t => simp
  · intro threshold N src u0 rest hN hlen hnd
    have hrun := runDedup_distinct_empty threshold N src hN (u0 :: rest) []
      (by simpa using hnd)
    simp only [List.map_nil, List.nil_append, List.length_nil, List.drop_nil,
      Nat.zero_sub] at hrun
    rw [hrun]
    have hlen2 : (u0 :: rest).length - N = 1 := by
      simp only [List.length_cons, hlen]
      omega
    have hitems : ((u0 :: rest).map (fun u => src ++ ':' :: u)).drop
        ((u0 :: rest).length - N) = rest.map (fun u => src ++ ':' :: u) := by
      rw [hlen2]
      simp
    have hnotmem : (src ++ ':' :: u0) ∉ rest.map (fun u => src ++ ':' :: u) := by
      have := hnd
      simp only [List.map_cons, List.nodup_cons] at this
      exact this.1
    constructor
    · rw [hitems]
      exact hnotmem
    · rw [hitems]
      have hstep := step_empty_title_fresh threshold
        ⟨[], ⟨N, rest.map (fun u => src ++ ':' :: u)⟩, ⟨200, []⟩⟩ src u0
        rfl (by simpa using hnotmem)
      rw [hstep]

/-- Witness for C5: a one-step run stays within bounds; a full capacity-2
deque evicts its oldest entry; after three distinct ids through a
capacity-2 window the first id is evicted and classified new again. -/
theorem dedup_windows_c5_witness :
    ((runDedup 88 initialState
        [("s".data, "u".data, "t".data)]).seenHeadlines.items.length ≤ 1000 ∧
     (runDedup 88 initialState
        [("s".data, "u".data, "t".data)]).seenTitles.items.length ≤ 200) ∧
    (dqAppend ⟨2, ["a".data, "b".data]⟩ "c".data).items =
      ["a".data, "b".data].tail ++ ["c".data] ∧
    (("s".data ++ ':' :: "a".data) ∉
       (runDedup 88 ⟨[], ⟨2, []⟩, ⟨200, []⟩⟩
         (["a".data, "b".data, "c".data].map
           (fun u => ("s".data, u, ([] : List Char))))).seenHeadlines.items ∧
     (checkAndRecord 88
        ⟨[],
         (runDedup 88 ⟨[], ⟨2, []⟩, ⟨200, []⟩⟩
           (["a".data, "b".data, "c".data].map
             (fun u => ("s".data, u, ([] : List Char))))).seenHeadlines,
         (runDedup 88 ⟨[], ⟨2, []⟩, ⟨200, []⟩⟩
           (["a".data, "b".data, "c".data].map
             (fun u => ("s".data, u, ([] : List Char))))).seenTitles⟩
        "s".data "a".data []).1 = .fresh) :=
  ⟨dedup_windows_c5.1 88 [("s".data, "u".data, "t".data)],
   dedup_windows_c5.2.1 ⟨2, ["a".data, "b".data]⟩ "c".data rfl (by decide),
   dedup_windows_c5.2.2 88 2 "s".data "a".data ["b".data, "c".data]
     (by decide) (by decide) (by decide)⟩

/-! Claim C8: titles differing only by punctuation and case. -/

theorem indelDistF_self :
    ∀ (x : List Char) (fuel : Nat), x.length ≤ fuel → indelDistF fuel x x = 0 := by
  intro x
  induction x with
  | nil => intro fuel _; cases fuel <;> rfl
  | cons c xs ih =>
    intro fuel h
    match fuel with
    | 0 => exact absurd h (by simp)
    | f + 1 =>
      show indelDistF (f + 1) (c :: xs) (c :: xs) = 0
      rw [indelDistF, if_pos rfl]
      have hx : xs.length ≤ f := by
        simp only [List.length_cons] at h
        omega
      exact ih f hx

theorem indelDist_self (x : List Char) : indelDist x x = 0 :=
  indelDistF_self x (x.length + x.length) (by omega)

theorem indelRatio_self (s : List Char) : indelRatio s s = 100 := by
  unfold indelRatio
  by_cases h : s.length + s.length = 0
  · rw [if_pos h]
  · rw [if_neg h]
    rw [indelDist_self]
    rw [show 200 * (s.length + s.length - 0) + (s.length + s.length) =
      (2 * (s.length + s.length)) * 100 + (s.length + s.length) from by omega]
    rw [Nat.mul_add_div (by omega)]
    rw [Nat.div_eq_of_lt (by omega)]

/-- Reflexivity of the fuzzy score: a string with at least one token
scores 100 against itself. -/
theorem token_set_ratio_self (x : List Char) (h : tokenSet x ≠ []) :
    token_set_ratio x x = 100 := by
  simp only [token_set_ratio]
  rw [if_neg (by simp [List.isEmpty_iff, h])]
  have hsect : (tokenSet x).filter (fun t => (tokenSet x).contains t) =
      tokenSet x :=
    filter_all_eq_self _ (fun t ht => by simpa using ht)
  have hdab : (tokenSet x).filter (fun t => !(tokenSet x).contains t) = [] :=
    filter_false_eq_nil _ (fun t ht => by simpa using ht)
  rw [hsect, hdab, List.append_nil]
  simp [indelRatio_self]

theorem asciiCase_alnum :
    ∀ p ∈ asciiCase, p.1.isAlphanum = true ∧ p.2.isAlphanum = true := by
  decide

theorem isAlphanum_pyToLower (c : Char) :
    (pyToLower c).isAlphanum = c.isAlphanum := by
  cases hf : asciiCase.find? (fun p => p.1 = c) with
  | none => rw [pyToLower_eq, hf]; rfl
  | some p =>
    have hmem : p ∈ asciiCase := List.mem_of_find?_eq_some hf
    have hk := find?_key_eq hf
    have hp : pyToLower c = p.2 := by rw [pyToLower_eq, hf]; rfl
    obtain ⟨h1, h2⟩ := asciiCase_alnum p hmem
    rw [hp, h2, ← hk, h1]

theorem isSpaceCh_false_of_alnum (c : Char) (h : c.isAlphanum = true) :
    isSpaceCh c = false := by
  by_contra hc
  have hsp : isSpaceCh c = true := by simpa using hc
  unfold isSpaceCh at hsp
  simp only [Bool.or_eq_true, decide_eq_true_eq] at hsp
  rcases hsp with ((((h2 | h2) | h2) | h2) | h2) | h2 <;> subst h2 <;>
    exact absurd h (by decide)

theorem addCharToSplit_head_mem (c : Char) (cs : List Char)
    (r : List (List Char)) : ∃ w ∈ addCharToSplit c cs r, c ∈ w := by
  cases cs with
  | nil => exact ⟨[c], by simp [addCharToSplit], by simp⟩
  | cons d cs2 =>
    cases r with
    | nil => exact ⟨[c], by simp [addCharToSplit], by simp⟩
    | cons w1 ws =>
      by_cases hd : isSpaceCh d = true
      · exact ⟨[c], by simp [addCharToSplit, hd], by simp⟩
      · exact ⟨c :: w1, by simp [addCharToSplit, hd], by simp⟩

theorem addCharToSplit_mem_sub (c : Char) (cs : List Char)
    (r : List (List Char)) (w : List Char) (hw : w ∈ r) :
    ∃ w2 ∈ addCharToSplit c cs r, ∀ x ∈ w, x ∈ w2 := by
  cases cs with
  | nil =>
    refine ⟨w, ?_, fun x hx => hx⟩
    simp [addCharToSplit, hw]
  | cons d cs2 =>
    cases r with
    | nil => cases hw
    | cons w1 ws =>
      by_cases hd : isSpaceCh d = true
      · refine ⟨w, ?_, fun x hx => hx⟩
        simp [addCharToSplit, hd, hw]
      · rcases List.mem_cons.mp hw with h | h
        · subst h
          refine ⟨c :: w, ?_, fun x hx => by simp [hx]⟩
          simp [addCharToSplit, hd]
        · refine ⟨w, ?_, fun x hx => hx⟩
          simp [addCharToSplit, hd, h]

/-- Completeness of the splitter: every non-space character lands in some
word. -/
theorem mem_pySplitWs_of_mem :
    ∀ (s : List Char) (c : Char), c ∈ s → isSpaceCh c = false →
      ∃ w ∈ pySplitWs s, c ∈ w := by
  intro s
  induction s with
  | nil => intro c hc _; cases hc
  | cons a s2 ih =>
    intro c hc hns
    rcases List.mem_cons.mp hc with h | h
    · subst h
      rw [pySplitWs, if_neg (by simp [hns])]
      exact addCharToSplit_head_mem c s2 (pySplitWs s2)
    · obtain ⟨w, hw, hcw⟩ := ih c h hns
      by_cases ha : isSpaceCh a = true
      · rw [pySplitWs, if_pos ha]
        exact ⟨w, hw, hcw⟩
      · rw [pySplitWs, if_neg ha]
        obtain ⟨w2, hw2, hsub⟩ := addCharToSplit_mem_sub a s2 (pySplitWs s2) w hw
        exact ⟨w2, hw2, hsub c hcw⟩

theorem mem_joinWords_of_mem :
    ∀ (ws : List (List Char)) (w : List Char) (c : Char),
      w ∈ ws → c ∈ w → c ∈ joinWords ws := by
  intro ws
  induction ws with
  | nil => intro w c hw _; cases hw
  | cons w1 rest ih =>
    intro w c hw hc
    match rest with
    | [] =>
      have hww : w = w1 := by simpa using hw
      subst hww
      exact hc
    | w2 :: rest2 =>
      show c ∈ w1 ++ ' ' :: joinWords (w2 :: rest2)
      rcases List.mem_cons.mp hw with h | h
      · subst h
        exact List.mem_append.mpr (Or.inl hc)
      · refine List.mem_append.mpr (Or.inr ?_)
        exact List.mem_cons.mpr (Or.inr (ih w c h hc))

/-- The guard-free form of `normalize_title`. -/
theorem normalize_title_eq_join (t : List Char) :
    normalize_title t = joinWords (pySplitWs
      ((t.map pyToLower).filter (fun c => isWordChar c || isSpaceCh c))) := by
  unfold normalize_title
  split
  · rename_i h
    subst h
    rfl
  · rfl

/-- Alphanumeric characters of a title survive normalization (lowercased). -/
theorem mem_normalize_title_of_alnum (t : List Char) (c : Char)
    (hc : c ∈ t) (ha : c.isAlphanum = true) :
    pyToLower c ∈ normalize_title t := by
  rw [normalize_title_eq_join]
  have hmem : pyToLower c ∈ (t.map pyToLower).filter
      (fun c => isWordChar c || isSpaceCh c) := by
    apply List.mem_filter.mpr
    refine ⟨List.mem_map.mpr ⟨c, hc, rfl⟩, ?_⟩
    have hword : isWordChar (pyToLower c) = true := by
      unfold isWordChar
      rw [isAlphanum_pyToLower, ha]
      rfl
    simp [hword]
  have hns : isSpaceCh (pyToLower c) = false := by
    rw [isSpaceCh_pyToLower]
    exact isSpaceCh_false_of_alnum c ha
  obtain ⟨w, hw, hcw⟩ := mem_pySplitWs_of_mem _ (pyToLower c) hmem hns
  exact mem_joinWords_of_mem _ w _ hw hcw

theorem insertSorted_ne_nil (x : List Char) (l : List (List Char)) :
    insertSorted x l ≠ [] := by
  cases l with
  | nil => simp [insertSorted]
  | cons y ys =>
    unfold insertSorted
    split <;> simp

theorem sortTokens_ne_nil (l : List (List Char)) (h : l ≠ []) :
    sortTokens l ≠ [] := by
  cases l with
  | nil => exact absurd rfl h
  | cons a as => exact insertSorted_ne_nil a (sortTokens as)

theorem dedupTokens_ne_nil :
    ∀ l : List (List Char), l ≠ [] → dedupTokens l ≠ [] := by
  intro l
  induction l with
  | nil => intro h; exact absurd rfl h
  | cons t ts ih =>
    intro _
    unfold dedupTokens
    split
    · rename_i hcont
      have hts : ts ≠ [] := by
        intro he
        rw [he] at hcont
        cases hcont
      exact ih hts
    · simp

/-- A string holding an alphanumeric character has a nonempty token set. -/
theorem tokenSet_ne_nil_of_alnum (s : List Char) (c : Char)
    (hc : c ∈ s) (ha : c.isAlphanum = true) : tokenSet s ≠ [] := by
  unfold tokenSet
  apply sortTokens_ne_nil
  apply dedupTokens_ne_nil
  unfold fpTokens
  have hmapped : pyToLower c ∈
      s.map (fun c => if c.isAlphanum then pyToLower c else ' ') := by
    apply List.mem_map.mpr
    exact ⟨c, hc, by rw [if_pos ha]⟩
  have halnum2 : (pyToLower c).isAlphanum = true := by
    rw [isAlphanum_pyToLower]; exact ha
  have hns : isSpaceCh (pyToLower c) = false := isSpaceCh_false_of_alnum _ halnum2
  obtain ⟨w, hw, _⟩ := mem_pySplitWs_of_mem _ (pyToLower c) hmapped hns
  intro hnil
  rw [hnil] at hw
  cases hw

/-- The relation "same text up to punctuation and letter case": equal after
lowercasing and erasing every character that is neither a word character
nor whitespace. -/
def punctCaseEquiv (t1 t2 : List Char) : Prop :=
  (t1.map pyToLower).filter (fun c => isWordChar c || isSpaceCh c) =
    (t2.map pyToLower).filter (fun c => isWordChar c || isSpaceCh c)

instance punctCaseEquivDec (t1 t2 : List Char) :
    Decidable (punctCaseEquiv t1 t2) :=
  inferInstanceAs (Decidable (_ = _))

theorem normalize_title_congr {t1 t2 : List Char} (h : punctCaseEquiv t1 t2) :
    normalize_title t1 = normalize_title t2 := by
  rw [normalize_title_eq_join, normalize_title_eq_join, h]

/-- Claim C8 as stated is false for titles whose normalized form is empty:
"!!!" and "???" differ only by punctuation, yet the engine computes score
0 (not 100) for their normalized titles, and the second title is classified
new, not as a fuzzy duplicate, at the configured threshold 88. -/
theorem fuzzy_dup_c8_counterexample :
    punctCaseEquiv "!!!".data "???".data ∧
    token_set_ratio (normalize_title "!!!".data)
      (normalize_title "???".data) = 0 ∧
    (checkAndRecord 88
        (runDedup 88 initialState [("s".data, "u1".data, "!!!".data)])
        "s".data "u2".data "???".data).1 = .fresh := by
  refine ⟨by decide, by decide, by decide⟩

/-- Claim C8 (amended): for every pair of titles that differ only by
punctuation and letter case and contain at least one alphanumeric
character, the engine's token-set score of their normalized titles is 100,
so with the first title's normalized form in the fuzzy window, the second
title is flagged as a fuzzy duplicate at any positive threshold at most
100. -/
theorem fuzzy_dup_c8 (threshold : Nat) (t1 t2 source url : List Char)
    (st : DedupState)
    (hpos : 0 < threshold) (hle : threshold ≤ 100)
    (heq : punctCaseEquiv t1 t2)
    (halnum : ∃ c ∈ t1, c.isAlphanum = true)
    (hmem : normalize_title t1 ∈ st.seenTitles.items)
    (hcyc : st.cycleIds.contains (source ++ ':' :: url) = false) :
    token_set_ratio (normalize_title t1) (normalize_title t2) = 100 ∧
    (checkAndRecord threshold st source url t2).1 = .dupFuzzyTitle := by
  obtain ⟨c, hc, ha⟩ := halnum
  have hnn : normalize_title t1 = normalize_title t2 := normalize_title_congr heq
  have htok : tokenSet (normalize_title t1) ≠ [] :=
    tokenSet_ne_nil_of_alnum _ (pyToLower c)
      (mem_normalize_title_of_alnum t1 c hc ha)
      (by rw [isAlphanum_pyToLower]; exact ha)
  have h100 : token_set_ratio (normalize_title t1) (normalize_title t2) = 100 := by
    rw [← hnn]
    exact token_set_ratio_self _ htok
  refine ⟨h100, ?_⟩
  have hne2 : normalize_title t2 ≠ [] := by
    rw [← hnn]
    intro he
    have := mem_normalize_title_of_alnum t1 c hc ha
    rw [he] at this
    cases this
  have hgate : (!(normalize_title t2).isEmpty &&
      st.seenTitles.items.any
        (fun s => threshold ≤ token_set_ratio (normalize_title t2) s)) =
        true := by
    simp only [Bool.and_eq_true, Bool.not_eq_true']
    constructor
    · simpa [List.isEmpty_iff] using hne2
    · simp only [List.any_eq_true, decide_eq_true_eq]
      refine ⟨normalize_title t1, hmem, ?_⟩
      have h100b : token_set_ratio (normalize_title t2)
          (normalize_title t1) = 100 := by
        rw [← hnn]
        exact token_set_ratio_self _ htok
      rw [h100b]
      exact hle
  unfold checkAndRecord
  rw [if_neg (by simpa using hcyc), if_pos hgate]

/-- Witness for C8: "Fed, Rates!" and "fed rates" differ only by
punctuation and case; the score of their normalized titles is 100 and the
second is flagged as a fuzzy duplicate at threshold 88. -/
theorem fuzzy_dup_c8_witness :
    token_set_ratio (normalize_title "Fed, Rates!".data)
        (normalize_title "fed rates".data) = 100 ∧
    (checkAndRecord 88 ⟨[], ⟨1000, []⟩, ⟨200, ["fed rates".data]⟩⟩
        "s".data "u".data "fed rates".data).1 = .dupFuzzyTitle :=
  fuzzy_dup_c8 88 "Fed, Rates!".data "fed rates".data "s".data "u".data
    ⟨[], ⟨1000, []⟩, ⟨200, ["fed rates".data]⟩⟩
    (by decide) (by decide) (by decide) ⟨'F', by decide, by decide⟩
    (by decide) (by decide)

/-! The term-preserving translator: embedding of `translate_en_to_el`
(llm_handler.py lines 214-284). The placeholder pre-pass scans the current
text per term: a term containing a non-word character is matched as a
case-insensitive literal, a word-characters-only term additionally needs
word boundaries on both sides (the `re.search(r'\W', term)` branch, lines
232-235). Matches are non-overlapping and leftmost, as `finditer` yields
them; the replacement runs in reverse position order, assigning indices
from `placeholder_index` upward, so the j-th match (from the left) of a
pass with m matches receives index base+m-1-j; the scanner below assigns
the same indices with a countdown counter. The translated text has each
placeholder substituted back with its originally-cased matched text,
longest placeholder tokens first (line 267). -/

def digitChars : List Char := ['0','1','2','3','4','5','6','7','8','9']

def digitChar (d : Nat) : Char := digitChars.getD d '0'

/-- Decimal digits of a positive number, most significant first; the fuel
(always at least the number itself) makes the recursion structural. -/
def digits10F : Nat → Nat → List Char
  | _, 0 => []
  | 0, _ + 1 => []
  | fuel + 1, n + 1 =>
    digits10F fuel ((n + 1) / 10) ++ [digitChar ((n + 1) % 10)]

/-- Model of Python `str(i)` for natural numbers. -/
def digits10 (n : Nat) : List Char :=
  if n = 0 then ['0'] else digits10F n n

/-- The synthetic placeholder token, `f"__PLACEHOLDER_{i}__"`. -/
def mkTok (i : Nat) : List Char :=
  "__PLACEHOLDER_".data ++ digits10 i ++ "__".data

def noWordBefore (prev : Option Char) : Bool :=
  match prev with
  | none => true
  | some c => !isWordChar c

def noWordAfter (rest : List Char) : Bool :=
  match rest with
  | [] => true
  | c :: _ => !isWordChar c

/-- Case-insensitive prefix test (the `re.IGNORECASE` matching, ASCII). -/
def ciPrefixOf : List Char → List Char → Bool
  | [], _ => true
  | _ :: _, [] => false
  | a :: as, b :: bs => (pyToLower a = pyToLower b) && ciPrefixOf as bs

/-- Does the term's pattern match at the current position? `prev` is the
original character before the position (`none` at the start). In
word-boundary mode both sides must lie on a boundary. An empty term never
matches (the zero-width `\b\b` edge is not modelled; configured terms are
nonempty). -/
def matchesAt (wb : Bool) (term : List Char) (prev : Option Char)
    (text : List Char) : Bool :=
  !term.isEmpty && ciPrefixOf term text &&
    (!wb || (noWordBefore prev && noWordAfter (text.drop term.length)))

/-- The number of non-overlapping leftmost matches of the term. -/
def numMatchesF (wb : Bool) (term : List Char) :
    Nat → Option Char → List Char → Nat
  | _, _, [] => 0
  | 0, _, _ => 0
  | fuel + 1, prev, c :: rest =>
    if matchesAt wb term prev (c :: rest) then
      1 + numMatchesF wb term fuel ((c :: rest).take term.length).getLast?
            ((c :: rest).drop term.length)
    else numMatchesF wb term fuel (some c) rest

/-- One term's pass: replace each match with its placeholder token and
record `(index, original matched text)`; the counter `r` counts down so
that indices agree with the reverse-order replacement of the Python code. -/
def passReplaceF (wb : Bool) (term : List Char) (base : Nat) :
    Nat → Option Char → List Char → Nat →
      List Char × List (Nat × List Char)
  | _, _, [], _ => ([], [])
  | 0, _, t, _ => (t, [])
  | fuel + 1, prev, c :: rest, r =>
    if matchesAt wb term prev (c :: rest) then
      let res := passReplaceF wb term base fuel
        ((c :: rest).take term.length).getLast?
        ((c :: rest).drop term.length) (r - 1)
      (mkTok (base + r - 1) ++ res.1,
       (base + r - 1, (c :: rest).take term.length) :: res.2)
    else
      let res := passReplaceF wb term base fuel (some c) rest r
      (c :: res.1, res.2)

/-- Process one protected term (llm_handler.py lines 231-244): pick the
match rule, find the matches, substitute placeholders. The returned pair
list is in Python's dict insertion order (ascending index). -/
def applyTerm (term : List Char) (base : Nat) (text : List Char) :
    List Char × List (Nat × List Char) × Nat :=
  let wb := !term.any (fun c => !isWordChar c)
  let m := numMatchesF wb term text.length none text
  let res := passReplaceF wb term base text.length none text m
  (res.1, res.2.reverse, base + m)

/-- Process the protected terms in list order on the evolving text. -/
def applyTerms : List (List Char) → Nat → List Char →
    List Char × List (Nat × List Char)
  | [], _, text => (text, [])
  | term :: ts, base, text =>
    let r1 := applyTerm term base text
    let r2 := applyTerms ts r1.2.2 r1.1
    (r2.1, r1.2.1 ++ r2.2)

/-- Model of Python `str.replace` (all non-overlapping occurrences, left to
right). An empty pattern is treated as matching nowhere (Python would
interleave; the patterns used are placeholder tokens, never empty). -/
def pyReplaceF (pat repl : List Char) : Nat → List Char → List Char
  | _, [] => []
  | 0, s => s
  | fuel + 1, c :: rest =>
    if !pat.isEmpty && pat.isPrefixOf (c :: rest) then
      repl ++ pyReplaceF pat repl fuel ((c :: rest).drop pat.length)
    else c :: pyReplaceF pat repl fuel rest

def pyReplace (s pat repl : List Char) : List Char :=
  pyReplaceF pat repl s.length s

/-- Stable insertion by descending placeholder-token length, matching
`sorted(placeholders.items(), key=lambda item: len(item[0]), reverse=True)`
on an ascending-index association list. -/
def insertByLen (x : Nat × List Char) :
    List (Nat × List Char) → List (Nat × List Char)
  | [] => [x]
  | y :: ys =>
    if (mkTok x.1).length < (mkTok y.1).length then y :: insertByLen x ys
    else x :: y :: ys

def sortByTokenLen : List (Nat × List Char) → List (Nat × List Char)
  | [] => []
  | x :: xs => insertByLen x (sortByTokenLen xs)

/-- Post-processing (llm_handler.py lines 266-269): substitute placeholders
back with their original text, longest tokens first. -/
def backSubstitute (ps : List (Nat × List Char)) (s : List Char) : List Char :=
  (sortByTokenLen ps).foldl (fun acc p => pyReplace acc (mkTok p.1) p.2) s

/-- Embedding of `translate_en_to_el` (llm_handler.py lines 214-284),
parameterized by the protected-term list and the translation collaborator
`g` (`none` models an empty or failed DeepL result). -/
def translate_en_to_el (terms : List (List Char))
    (g : List Char → Option (List Char)) (text : List Char) :
    Option (List Char) :=
  if text.isEmpty then none
  else
    let pre := applyTerms terms 0 text
    match g pre.1 with
    | none => none
    | some tr => if tr.isEmpty then none else some (backSubstitute pre.2 tr)

/-- The claim's example collaborator: uppercase all text. On
placeholder-substituted text this uppercases exactly the non-placeholder
parts, since placeholder tokens are fixed by uppercasing. -/
def upperCollab (s : List Char) : Option (List Char) :=
  some (s.map pyToUpper)

/-- Claim C2 as stated is false for overlapping protected terms: with
terms ["eur/usd", "usd/jpy"] and input "eur/usd/jpy", the first pass
consumes "eur/usd", so the occurrence of "usd/jpy" is never protected and
comes back as "usd/JPY": it does not appear unchanged in the output. -/
theorem translate_c2_counterexample :
    translate_en_to_el ["eur/usd".data, "usd/jpy".data] upperCollab
        "eur/usd/jpy".data = some "eur/usd/JPY".data ∧
    "usd/jpy".data <:+: "eur/usd/jpy".data ∧
    ¬ ("usd/jpy".data <:+: "eur/usd/JPY".data) := by
  refine ⟨by decide, by decide, by decide⟩

/-! Infrastructure for the general translator theorem. A placeholder-
substituted text is an alternation of underscore-free chunks (runs of
original characters) and placeholder tokens; the pre-pass, the uppercasing
collaborator and the back-substitution are all tracked on that structure. -/

inductive Piece where
  | chunk : List Char → Piece
  | tok : Nat → Piece
deriving DecidableEq

def pieceFlat : Piece → List Char
  | .chunk s => s
  | .tok i => mkTok i

def altFlat : List Piece → List Char
  | [] => []
  | p :: L => pieceFlat p ++ altFlat L

def wfPiece : Piece → Prop
  | .chunk s => s ≠ [] ∧ '_' ∉ s
  | .tok _ => True

def wfPieces (L : List Piece) : Prop := ∀ p ∈ L, wfPiece p

/-- The placeholder indices present in a piece list, in order. -/
def toks : List Piece → List Nat
  | [] => []
  | .chunk _ :: L => toks L
  | .tok i :: L => i :: toks L

/-- The index interval `[s, s+n)` as a list. -/
def idxRange : Nat → Nat → List Nat
  | _, 0 => []
  | s, n + 1 => s :: idxRange (s + 1) n

/-- Back-substituting one placeholder on the piece level. -/
def substPiece (i : Nat) (orig : List Char) : Piece → Piece
  | .chunk s => .chunk s
  | .tok j => if j = i then .chunk orig else .tok j

/-- The uppercasing collaborator on the piece level: tokens are fixed. -/
def upperPiece : Piece → Piece
  | .chunk s => .chunk (s.map pyToUpper)
  | .tok i => .tok i

/-- Prepend one character to a piece list as chunk material. -/
def consChunk (c : Char) : List Piece → List Piece
  | .chunk s :: L => .chunk (c :: s) :: L
  | L => .chunk [c] :: L

def digitVal (c : Char) : Nat :=
  match c with
  | '0' => 0 | '1' => 1 | '2' => 2 | '3' => 3 | '4' => 4
  | '5' => 5 | '6' => 6 | '7' => 7 | '8' => 8 | '9' => 9
  | _ => 0

/-- Decimal valuation of a digit string. -/
def valNum (l : List Char) : Nat := l.foldl (fun a c => 10 * a + digitVal c) 0

theorem digitChar_mem (d : Nat) : digitChar d ∈ digitChars := by
  rcases Nat.lt_or_ge d 10 with h | h
  · interval_cases d <;> decide
  · have hl : digitChars.length ≤ d := by
      have h10 : digitChars.length = 10 := by decide
      omega
    rw [digitChar, List.getD_eq_default _ _ hl]
    decide

theorem digits10F_digits : ∀ fuel n, ∀ c ∈ digits10F fuel n, c ∈ digitChars := by
  intro fuel
  induction fuel with
  | zero => intro n c hc; cases n <;> simp [digits10F] at hc
  | succ f ih =>
    intro n c hc
    cases n with
    | zero => simp [digits10F] at hc
    | succ m =>
      rw [digits10F] at hc
      rcases List.mem_append.mp hc with h | h
      · exact ih _ _ h
      · simp at h; subst h; exact digitChar_mem _

theorem digits10_digits (n : Nat) : ∀ c ∈ digits10 n, c ∈ digitChars := by
  intro c hc
  rw [digits10] at hc
  split at hc
  · simp at hc; subst hc; decide
  · exact digits10F_digits _ _ _ hc

theorem digits10F_ne_nil (fuel n : Nat) (h0 : n ≠ 0) (hle : n ≤ fuel) :
    digits10F fuel n ≠ [] := by
  cases fuel with
  | zero => omega
  | succ f =>
    cases n with
    | zero => omega
    | succ m => rw [digits10F]; simp

theorem digits10_ne_nil (n : Nat) : digits10 n ≠ [] := by
  rw [digits10]
  split
  next => simp
  next h => exact digits10F_ne_nil n n h le_rfl

theorem valNum_append_one (l : List Char) (c : Char) :
    valNum (l ++ [c]) = 10 * valNum l + digitVal c := by
  simp [valNum, List.foldl_append]

theorem valNum_digits10F : ∀ fuel, ∀ n ≤ fuel, valNum (digits10F fuel n) = n := by
  intro fuel
  induction fuel using Nat.strong_induction_on with
  | _ fuel ih =>
    intro n hle
    cases n with
    | zero => cases fuel <;> simp [digits10F, valNum]
    | succ m =>
      cases fuel with
      | zero => omega
      | succ f =>
        rw [digits10F, valNum_append_one]
        have hdiv : (m + 1) / 10 ≤ f := by
          have := Nat.div_lt_self (show 0 < m + 1 by omega) (show 1 < 10 by omega)
          omega
        rw [ih f (by omega) _ hdiv]
        have hd : ∀ k, k < 10 → digitVal (digitChar k) = k := by
          intro k hk; interval_cases k <;> decide
        rw [hd _ (Nat.mod_lt _ (by omega))]
        omega

theorem valNum_digits10 (n : Nat) : valNum (digits10 n) = n := by
  rw [digits10]
  split
  next h => subst h; decide
  next => exact valNum_digits10F n n le_rfl

theorem digits10_inj {m n : Nat} (h : digits10 m = digits10 n) : m = n := by
  have hm := valNum_digits10 m
  rw [h, valNum_digits10] at hm
  omega

/-- The explicit character spine of a placeholder token. -/
theorem mkTok_eq (i : Nat) :
    mkTok i = '_' :: '_' :: 'P' :: 'L' :: 'A' :: 'C' :: 'E' :: 'H' :: 'O' ::
      'L' :: 'D' :: 'E' :: 'R' :: '_' :: (digits10 i ++ ['_', '_']) := rfl

theorem digit_word : ∀ c ∈ digitChars, isWordChar c = true := by decide

theorem mkTok_chars_word (i : Nat) : ∀ c ∈ mkTok i, isWordChar c = true := by
  intro c hc
  rw [mkTok] at hc
  simp only [List.mem_append] at hc
  rcases hc with (h | h) | h
  · exact (show ∀ c ∈ "__PLACEHOLDER_".data, isWordChar c = true by decide) c h
  · exact digit_word c (digits10_digits i c h)
  · exact (show ∀ c ∈ "__".data, isWordChar c = true by decide) c h

theorem pyToLower_underscore {c : Char} (h : pyToLower c = '_') : c = '_' := by
  cases hf : asciiCase.find? (fun p => p.1 = c) with
  | none => rw [pyToLower_eq, hf] at h; exact h
  | some p =>
    have hmem : p ∈ asciiCase := List.mem_of_find?_eq_some hf
    have hp : pyToLower c = p.2 := by rw [pyToLower_eq, hf]; rfl
    rw [hp] at h
    exact absurd h (asciiCase_classes p hmem).2.2.2.2.2

theorem pyToUpper_underscore {c : Char} (h : pyToUpper c = '_') : c = '_' := by
  cases hf : asciiCase.find? (fun p => p.2 = c) with
  | none => rw [pyToUpper, hf] at h; exact h
  | some p =>
    have hmem : p ∈ asciiCase := List.mem_of_find?_eq_some hf
    have hp : pyToUpper c = p.1 := by rw [pyToUpper, hf]
    rw [hp] at h
    exact absurd h (asciiCase_classes p hmem).2.2.2.2.1

/-- Uppercasing fixes every character of a token. -/
theorem mkTok_upper_fixed (i : Nat) : (mkTok i).map pyToUpper = mkTok i := by
  have hfix : ∀ c ∈ mkTok i, pyToUpper c = c := by
    intro c hc
    rw [mkTok] at hc
    simp only [List.mem_append] at hc
    rcases hc with (h | h) | h
    · exact (show ∀ c ∈ "__PLACEHOLDER_".data, pyToUpper c = c by decide) c h
    · exact (show ∀ c ∈ digitChars, pyToUpper c = c by decide) c (digits10_digits i c h)
    · exact (show ∀ c ∈ "__".data, pyToUpper c = c by decide) c h
  calc (mkTok i).map pyToUpper = (mkTok i).map id := List.map_congr_left hfix
  _ = mkTok i := List.map_id _

theorem altFlat_append (L M : List Piece) :
    altFlat (L ++ M) = altFlat L ++ altFlat M := by
  induction L with
  | nil => rfl
  | cons p L ih => simp [altFlat, ih]

theorem wfPieces_cons {p : Piece} {L : List Piece} :
    wfPieces (p :: L) ↔ wfPiece p ∧ wfPieces L := by
  constructor
  · intro h; exact ⟨h p (by simp), fun q hq => h q (by simp [hq])⟩
  · rintro ⟨h1, h2⟩ q hq
    rcases List.mem_cons.mp hq with h | h
    · subst h; exact h1
    · exact h2 q h

theorem wfPieces_nil : wfPieces [] := fun p hp => absurd hp (List.not_mem_nil p)

theorem toks_consChunk (c : Char) (L : List Piece) : toks (consChunk c L) = toks L := by
  cases L with
  | nil => rfl
  | cons p M => cases p <;> rfl

theorem altFlat_consChunk (c : Char) (L : List Piece) :
    altFlat (consChunk c L) = c :: altFlat L := by
  cases L with
  | nil => rfl
  | cons p M => cases p <;> rfl

theorem wfPieces_consChunk {c : Char} {L : List Piece} (hc : c ≠ '_')
    (hL : wfPieces L) : wfPieces (consChunk c L) := by
  have hone : '_' ∉ [c] := fun hmem => hc ((List.mem_singleton.mp hmem).symm)
  cases L with
  | nil =>
    show wfPieces (Piece.chunk [c] :: [])
    exact wfPieces_cons.mpr ⟨⟨by simp, hone⟩, wfPieces_nil⟩
  | cons p M =>
    cases p with
    | chunk s =>
      show wfPieces (Piece.chunk (c :: s) :: M)
      obtain ⟨⟨_, hs⟩, hM⟩ := wfPieces_cons.mp hL
      refine wfPieces_cons.mpr ⟨⟨by simp, ?_⟩, hM⟩
      simp only [List.mem_cons]
      rintro (h | h)
      · exact hc h.symm
      · exact hs h
    | tok i =>
      show wfPieces (Piece.chunk [c] :: Piece.tok i :: M)
      exact wfPieces_cons.mpr ⟨⟨by simp, hone⟩, hL⟩

theorem mem_idxRange : ∀ n s x, x ∈ idxRange s n ↔ s ≤ x ∧ x < s + n := by
  intro n
  induction n with
  | zero => intro s x; simp [idxRange]
  | succ m ih =>
    intro s x
    rw [idxRange]
    simp only [List.mem_cons, ih]
    omega

theorem idxRange_concat : ∀ n s, idxRange s (n + 1) = idxRange s n ++ [s + n] := by
  intro n
  induction n with
  | zero => intro s; rfl
  | succ m ih =>
    intro s
    have hn : s + 1 + m = s + (m + 1) := by omega
    show s :: idxRange (s + 1) (m + 1) = (s :: idxRange (s + 1) m) ++ [s + (m + 1)]
    rw [ih (s + 1), hn, List.cons_append]

theorem idxRange_append : ∀ m s k, idxRange s m ++ idxRange (s + m) k = idxRange s (m + k) := by
  intro m
  induction m with
  | zero => intro s k; simp [idxRange]
  | succ n ih =>
    intro s k
    rw [idxRange]
    show s :: (idxRange (s + 1) n ++ idxRange (s + (n + 1)) k) = idxRange s (n + 1 + k)
    have hs : s + (n + 1) = (s + 1) + n := by omega
    rw [hs, ih]
    have hk : n + 1 + k = (n + k) + 1 := by omega
    rw [hk, idxRange]

theorem idxRange_nodup : ∀ n s, (idxRange s n).Nodup := by
  intro n
  induction n with
  | zero => intro s; simp [idxRange]
  | succ m ih =>
    intro s
    rw [idxRange]
    refine List.nodup_cons.mpr ⟨?_, ih (s + 1)⟩
    rw [mem_idxRange]
    omega

/-- A case-insensitive match is at most as long as the text. -/
theorem ciPrefixOf_length : ∀ term s, ciPrefixOf term s = true → term.length ≤ s.length := by
  intro term
  induction term with
  | nil => intro s _; simp
  | cons t ts ih =>
    intro s h
    cases s with
    | nil => exact absurd h (by simp [ciPrefixOf])
    | cons b bs =>
      rw [ciPrefixOf, Bool.and_eq_true] at h
      have := ih bs h.2
      simp [List.length_cons]
      omega

/-- The text region covered by a match of an underscore-free term is
underscore-free. -/
theorem ciPrefixOf_take_underscore_free :
    ∀ term s, '_' ∉ term → ciPrefixOf term s = true → '_' ∉ s.take term.length := by
  intro term
  induction term with
  | nil => intro s _ _; simp
  | cons t ts ih =>
    intro s hu h
    cases s with
    | nil => exact absurd h (by simp [ciPrefixOf])
    | cons b bs =>
      rw [ciPrefixOf, Bool.and_eq_true] at h
      have hb : b ≠ '_' := by
        intro hb
        apply hu
        have := h.1
        rw [decide_eq_true_iff] at this
        rw [hb] at this
        have ht : t = '_' := pyToLower_underscore (by simpa using this)
        simp [ht]
      have hts : '_' ∉ ts := fun hm => hu (by simp [hm])
      have := ih bs hts h.2
      simp only [List.length_cons, List.take_succ_cons, List.mem_cons]
      rintro (h1 | h1)
      · exact hb h1.symm
      · exact this h1

/-- Characters equal up to lowercasing lie in the same `\w` class. -/
theorem word_of_ci {t a : Char} (h : pyToLower t = pyToLower a) :
    isWordChar t = isWordChar a := by
  rw [← isWordChar_pyToLower t, h, isWordChar_pyToLower]

/-- A term that case-insensitively matches a text made of word characters
followed by an underscore consists of word characters only. -/
theorem ci_through_words :
    ∀ w term rest, (∀ c ∈ w, isWordChar c = true) →
      ciPrefixOf term (w ++ '_' :: rest) = true → '_' ∉ term →
      ∀ c ∈ term, isWordChar c = true := by
  intro w
  induction w with
  | nil =>
    intro term rest _ h hu c hc
    cases term with
    | nil => simp at hc
    | cons t ts =>
      rw [List.nil_append, ciPrefixOf, Bool.and_eq_true] at h
      have := h.1
      rw [decide_eq_true_iff] at this
      have ht : t = '_' := pyToLower_underscore (by simpa using this)
      exact absurd (by simp [ht] : '_' ∈ t :: ts) hu
  | cons a w' ih =>
    intro term rest hw h hu c hc
    cases term with
    | nil => simp at hc
    | cons t ts =>
      rw [List.cons_append, ciPrefixOf, Bool.and_eq_true] at h
      have h1 := h.1
      rw [decide_eq_true_iff] at h1
      rcases List.mem_cons.mp hc with hceq | hcts
      · subst hceq
        rw [word_of_ci h1]
        exact hw a (by simp)
      · exact ih ts rest (fun d hd => hw d (by simp [hd])) h.2
          (fun hm => hu (by simp [hm])) c hcts

theorem underscore_not_digit : '_' ∉ digitChars := by decide

/-- Two digit blocks each followed by an underscore and aligned at the same
position are equal. -/
theorem digit_block_eq :
    ∀ xs ys t₁ t₂ : List Char,
      (∀ c ∈ xs, c ∈ digitChars) → (∀ c ∈ ys, c ∈ digitChars) →
      (xs ++ '_' :: t₁) <+: (ys ++ '_' :: t₂) → xs = ys := by
  intro xs
  induction xs with
  | nil =>
    intro ys t₁ t₂ _ hys h
    cases ys with
    | nil => rfl
    | cons y ys' =>
      rw [List.nil_append, List.cons_append, List.cons_prefix_cons] at h
      have : ('_' : Char) ∈ digitChars := by
        rw [h.1]; exact hys y (List.mem_cons_self _ _)
      exact absurd this underscore_not_digit
  | cons x xs' ih =>
    intro ys t₁ t₂ hxs hys h
    cases ys with
    | nil =>
      rw [List.cons_append, List.nil_append, List.cons_prefix_cons] at h
      have : ('_' : Char) ∈ digitChars := by
        rw [← h.1]; exact hxs x (List.mem_cons_self _ _)
      exact absurd this underscore_not_digit
    | cons y ys' =>
      rw [List.cons_append, List.cons_append, List.cons_prefix_cons] at h
      rw [h.1, ih ys' t₁ t₂ (fun c hc => hxs c (by simp [hc]))
        (fun c hc => hys c (by simp [hc])) h.2]

/-- An underscore-free pattern block aligned against an underscore-free
chunk followed by more text consumes the whole chunk. -/
theorem underscore_cancel :
    ∀ s p q r : List Char, '_' ∉ s → '_' ∉ p →
      (p ++ '_' :: q) <+: (s ++ r) →
      ∃ p', p = s ++ p' ∧ (p' ++ '_' :: q) <+: r := by
  intro s
  induction s with
  | nil => intro p q r _ _ h; exact ⟨p, rfl, h⟩
  | cons a s' ih =>
    intro p q r hs hp h
    cases p with
    | nil =>
      rw [List.nil_append, List.cons_append, List.cons_prefix_cons] at h
      exact absurd (by rw [h.1]; exact List.mem_cons_self _ _) hs
    | cons b p' =>
      rw [List.cons_append, List.cons_append, List.cons_prefix_cons] at h
      obtain ⟨hba, h2⟩ := h
      obtain ⟨p'', hpeq, hpre⟩ := ih p' q r (fun hm => hs (by simp [hm]))
        (fun hm => hp (by simp [hm])) h2
      exact ⟨p'', by rw [List.cons_append, ← hpeq, hba], hpre⟩

/-- In the flat text of a well-formed piece list, no position starts an
underscore-free word followed by an underscore followed by a digit: the
underscore would have to open a token, whose second character is again an
underscore. -/
theorem no_word_underscore_digit :
    ∀ L : List Piece, wfPieces L → ∀ p d q, '_' ∉ p → d ∈ digitChars →
      ¬ ((p ++ '_' :: d :: q) <+: altFlat L) := by
  intro L
  induction L with
  | nil =>
    intro _ p d q _ _ h
    rw [altFlat, List.prefix_nil] at h
    simp at h
  | cons piece M ih =>
    intro hwf p d q hp hd h
    obtain ⟨hw1, hwM⟩ := wfPieces_cons.mp hwf
    cases piece with
    | chunk s =>
      obtain ⟨hsne, hsu⟩ := hw1
      simp only [altFlat, pieceFlat] at h
      have h' : (p ++ '_' :: d :: q) <+: (s ++ altFlat M) := h
      obtain ⟨p'', hpeq, hpre⟩ := underscore_cancel s p (d :: q) (altFlat M) hsu hp h'
      refine ih hwM p'' d q ?_ hd hpre
      intro hm
      apply hp
      rw [hpeq]
      simp [hm]
    | tok j =>
      simp only [altFlat, pieceFlat] at h
      cases p with
      | nil =>
        rw [List.nil_append, mkTok_eq] at h
        simp only [List.cons_append, List.cons_prefix_cons, true_and] at h
        have : ('_' : Char) ∈ digitChars := by rw [← h.1]; exact hd
        exact absurd this underscore_not_digit
      | cons b p' =>
        rw [mkTok_eq] at h
        simp only [List.cons_append, List.cons_prefix_cons] at h
        exact hp (by rw [h.1]; exact List.mem_cons_self _ _)

/-- In the flat text of a well-formed piece list, no position starts an
underscore followed by the letter P. -/
theorem no_underscore_P (L : List Piece) (hwf : wfPieces L) (q : List Char) :
    ¬ (('_' :: 'P' :: q) <+: altFlat L) := by
  intro h
  cases L with
  | nil => rw [altFlat, List.prefix_nil] at h; simp at h
  | cons piece M =>
    obtain ⟨hw1, _⟩ := wfPieces_cons.mp hwf
    cases piece with
    | chunk s =>
      obtain ⟨hsne, hsu⟩ := hw1
      cases s with
      | nil => exact hsne rfl
      | cons a s' =>
        simp only [altFlat, pieceFlat, List.cons_append, List.cons_prefix_cons] at h
        exact hsu (by rw [h.1]; exact List.mem_cons_self _ _)
    | tok j =>
      simp only [altFlat, pieceFlat] at h
      rw [mkTok_eq] at h
      simp only [List.cons_append, List.cons_prefix_cons] at h
      simp at h

/-- A placeholder token never occurs strictly inside another token, nor at
the start of a different token, however the following text continues into
the flat of a well-formed piece list. -/
theorem tok_no_occur (i j : Nat) (hij : i ≠ j) (M : List Piece) (hM : wfPieces M) :
    ∀ k, k < (mkTok j).length →
      ¬ (mkTok i <+: ((mkTok j).drop k ++ altFlat M)) := by
  intro k hk h
  have hlen : (mkTok j).length = (digits10 j).length + 16 := by
    rw [mkTok_eq]
    simp only [List.length_cons, List.length_append, List.length_nil]
  obtain ⟨d0, ds0, hd0⟩ : ∃ d ds, digits10 i = d :: ds := by
    cases hdi : digits10 i with
    | nil => exact absurd hdi (digits10_ne_nil i)
    | cons d ds => exact ⟨d, ds, rfl⟩
  have hd0mem : d0 ∈ digitChars := by
    apply digits10_digits i
    rw [hd0]
    exact List.mem_cons_self _ _
  obtain ⟨e0, es0, he0⟩ : ∃ e es, digits10 j = e :: es := by
    cases hdj : digits10 j with
    | nil => exact absurd hdj (digits10_ne_nil j)
    | cons e es => exact ⟨e, es, rfl⟩
  have he0mem : e0 ∈ digitChars := by
    apply digits10_digits j
    rw [he0]
    exact List.mem_cons_self _ _
  rcases Nat.lt_or_ge k 14 with hk14 | hk14
  · interval_cases k
    · -- k = 0: same token start, digit blocks align, so i = j
      rw [List.drop_zero, mkTok_eq i, mkTok_eq j] at h
      simp only [List.cons_append, List.cons_prefix_cons, true_and] at h
      have h' : (digits10 i ++ '_' :: ['_']) <+:
          (digits10 j ++ '_' :: ('_' :: altFlat M)) := by
        simpa [List.append_assoc] using h
      exact hij (digits10_inj
        (digit_block_eq _ _ _ _ (digits10_digits i) (digits10_digits j) h'))
    · -- k = 1: second character P of the text mismatches the pattern
      rw [mkTok_eq i, mkTok_eq j] at h
      simp only [List.drop_succ_cons, List.drop_zero] at h
      simp only [List.cons_append, List.cons_prefix_cons] at h
      simp at h
    · rw [mkTok_eq i, mkTok_eq j] at h
      simp only [List.drop_succ_cons, List.drop_zero] at h
      simp only [List.cons_append, List.cons_prefix_cons] at h
      simp at h
    · rw [mkTok_eq i, mkTok_eq j] at h
      simp only [List.drop_succ_cons, List.drop_zero] at h
      simp only [List.cons_append, List.cons_prefix_cons] at h
      simp at h
    · rw [mkTok_eq i, mkTok_eq j] at h
      simp only [List.drop_succ_cons, List.drop_zero] at h
      simp only [List.cons_append, List.cons_prefix_cons] at h
      simp at h
    · rw [mkTok_eq i, mkTok_eq j] at h
      simp only [List.drop_succ_cons, List.drop_zero] at h
      simp only [List.cons_append, List.cons_prefix_cons] at h
      simp at h
    · rw [mkTok_eq i, mkTok_eq j] at h
      simp only [List.drop_succ_cons, List.drop_zero] at h
      simp only [List.cons_append, List.cons_prefix_cons] at h
      simp at h
    · rw [mkTok_eq i, mkTok_eq j] at h
      simp only [List.drop_succ_cons, List.drop_zero] at h
      simp only [List.cons_append, List.cons_prefix_cons] at h
      simp at h
    · rw [mkTok_eq i, mkTok_eq j] at h
      simp only [List.drop_succ_cons, List.drop_zero] at h
      simp only [List.cons_append, List.cons_prefix_cons] at h
      simp at h
    · rw [mkTok_eq i, mkTok_eq j] at h
      simp only [List.drop_succ_cons, List.drop_zero] at h
      simp only [List.cons_append, List.cons_prefix_cons] at h
      simp at h
    · rw [mkTok_eq i, mkTok_eq j] at h
      simp only [List.drop_succ_cons, List.drop_zero] at h
      simp only [List.cons_append, List.cons_prefix_cons] at h
      simp at h
    · rw [mkTok_eq i, mkTok_eq j] at h
      simp only [List.drop_succ_cons, List.drop_zero] at h
      simp only [List.cons_append, List.cons_prefix_cons] at h
      simp at h
    · rw [mkTok_eq i, mkTok_eq j] at h
      simp only [List.drop_succ_cons, List.drop_zero] at h
      simp only [List.cons_append, List.cons_prefix_cons] at h
      simp at h
    · -- k = 13: the underscore before the digit block, followed by a digit
      rw [mkTok_eq i, mkTok_eq j] at h
      simp only [List.drop_succ_cons, List.drop_zero] at h
      rw [he0] at h
      simp only [List.cons_append, List.cons_prefix_cons, true_and] at h
      have : ('_' : Char) ∈ digitChars := by rw [h.1]; exact he0mem
      exact absurd this underscore_not_digit
  · -- k = m + 14: inside or after the digit block
    obtain ⟨m, hm⟩ : ∃ m, k = m + 14 := ⟨k - 14, by omega⟩
    subst hm
    have hdropeq : (mkTok j).drop (m + 14) = (digits10 j ++ ['_', '_']).drop m := by
      rw [mkTok_eq]
      rfl
    rw [hdropeq] at h
    rcases Nat.lt_trichotomy m (digits10 j).length with hmd | hmd | hmd
    · -- inside the digit block: text head is a digit, pattern head is '_'
      have hsplit : (digits10 j ++ ['_', '_']).drop m =
          (digits10 j).drop m ++ ['_', '_'] := by
        rw [List.drop_append_eq_append_drop]
        have : m - (digits10 j).length = 0 := by omega
        rw [this, List.drop_zero]
      rw [hsplit] at h
      obtain ⟨f0, fs0, hf0⟩ : ∃ f fs, (digits10 j).drop m = f :: fs := by
        cases hdm : (digits10 j).drop m with
        | nil =>
          have := congrArg List.length hdm
          rw [List.length_drop] at this
          simp at this
          omega
        | cons f fs => exact ⟨f, fs, rfl⟩
      have hfmem : f0 ∈ digitChars := by
        apply digits10_digits j
        exact List.mem_of_mem_drop (by rw [hf0]; exact List.mem_cons_self _ _)
      rw [hf0, mkTok_eq] at h
      simp only [List.cons_append, List.cons_prefix_cons] at h
      have : ('_' : Char) ∈ digitChars := by rw [h.1]; exact hfmem
      exact absurd this underscore_not_digit
    · -- at the closing double underscore: the pattern interior would have
      -- to restart inside the following pieces
      have hsplit : (digits10 j ++ ['_', '_']).drop m = ['_', '_'] := by
        rw [List.drop_append_eq_append_drop, List.drop_of_length_le (le_of_eq hmd.symm)]
        have : m - (digits10 j).length = 0 := by omega
        rw [this, List.drop_zero, List.nil_append]
      rw [hsplit, mkTok_eq] at h
      simp only [List.cons_append, List.cons_prefix_cons, List.nil_append, true_and] at h
      refine no_word_underscore_digit M hM "PLACEHOLDER".data d0 (ds0 ++ ['_', '_'])
        (by decide) hd0mem ?_
      rw [hd0] at h
      simpa using h
    · -- at the final underscore of the token
      have hm2 : m = (digits10 j).length + 1 := by
        rw [hlen] at hk
        omega
      have hsplit : (digits10 j ++ ['_', '_']).drop m = ['_'] := by
        rw [List.drop_append_eq_append_drop, List.drop_of_length_le (by omega)]
        have : m - (digits10 j).length = 1 := by omega
        rw [this, List.nil_append]
        rfl
      rw [hsplit, mkTok_eq] at h
      simp only [List.cons_append, List.cons_prefix_cons, List.nil_append, true_and] at h
      exact no_underscore_P M hM _ h

theorem isPrefixOf_iff {l₁ l₂ : List Char} : l₁.isPrefixOf l₂ = true ↔ l₁ <+: l₂ :=
  List.isPrefixOf_iff_prefix

theorem mkTok_length (i : Nat) : (mkTok i).length = (digits10 i).length + 16 := by
  rw [mkTok_eq]
  simp only [List.length_cons, List.length_append, List.length_nil]

theorem mkTok_ne_nil (i : Nat) : mkTok i ≠ [] := by
  rw [mkTok_eq]
  simp

/-- Prepend chunk material to a piece list, skipping an empty chunk. -/
def chunkCons (s : List Char) (L : List Piece) : List Piece :=
  match s with
  | [] => L
  | _ => .chunk s :: L

theorem altFlat_chunkCons (s : List Char) (L : List Piece) :
    altFlat (chunkCons s L) = s ++ altFlat L := by
  cases s with
  | nil => rfl
  | cons c s' => simp [chunkCons, altFlat, pieceFlat]

theorem toks_chunkCons (s : List Char) (L : List Piece) :
    toks (chunkCons s L) = toks L := by
  cases s with
  | nil => rfl
  | cons c s' => rfl

theorem wfPieces_chunkCons {s : List Char} {L : List Piece} (hs : '_' ∉ s)
    (hL : wfPieces L) : wfPieces (chunkCons s L) := by
  cases s with
  | nil => exact hL
  | cons c s' => exact wfPieces_cons.mpr ⟨⟨by simp, hs⟩, hL⟩

theorem map_substPiece_chunkCons (i : Nat) (orig s : List Char) (L : List Piece) :
    (chunkCons s L).map (substPiece i orig) = chunkCons s (L.map (substPiece i orig)) := by
  cases s with
  | nil => rfl
  | cons c s' => rfl

/-- `str.replace` copies text through a region where the pattern matches at
no position. -/
theorem pyReplaceF_copy :
    ∀ w t pat repl fuel,
      (∀ k, k < w.length → ¬ (pat <+: (w.drop k ++ t))) →
      w.length + t.length ≤ fuel →
      pyReplaceF pat repl fuel (w ++ t) =
        w ++ pyReplaceF pat repl (fuel - w.length) t := by
  intro w
  induction w with
  | nil => intro t pat repl fuel _ _; simp
  | cons c w' ih =>
    intro t pat repl fuel hno hfuel
    cases fuel with
    | zero =>
      exfalso
      simp only [List.length_cons] at hfuel
      omega
    | succ f =>
      rw [List.cons_append, pyReplaceF]
      have hnm : ¬ ((!pat.isEmpty && pat.isPrefixOf (c :: (w' ++ t))) = true) := by
        intro hcontra
        rw [Bool.and_eq_true] at hcontra
        have h0 := hno 0 (by simp)
        rw [List.drop_zero, List.cons_append] at h0
        exact h0 (isPrefixOf_iff.mp hcontra.2)
      rw [if_neg hnm]
      have harith : f + 1 - (c :: w').length = f - w'.length := by
        simp only [List.length_cons]
        omega
      have hno' : ∀ k, k < w'.length → ¬ (pat <+: (w'.drop k ++ t)) := by
        intro k hk
        have hk1 := hno (k + 1) (by simp only [List.length_cons]; omega)
        rw [List.drop_succ_cons] at hk1
        exact hk1
      have hfuel' : w'.length + t.length ≤ f := by
        simp only [List.length_cons] at hfuel
        omega
      rw [harith, List.cons_append, ih t pat repl f hno' hfuel']

/-- `str.replace` consumes a match at the head. -/
theorem pyReplaceF_step_match (pat repl : List Char) (f : Nat) (t : List Char)
    (hne : pat ≠ []) :
    pyReplaceF pat repl (f + 1) (pat ++ t) = repl ++ pyReplaceF pat repl f t := by
  cases hp : pat with
  | nil => exact absurd hp hne
  | cons a p' =>
    rw [List.cons_append, pyReplaceF]
    have hcond : (!(a :: p').isEmpty && (a :: p').isPrefixOf (a :: (p' ++ t))) = true := by
      rw [Bool.and_eq_true]
      refine ⟨by simp, ?_⟩
      rw [← List.cons_append]
      exact isPrefixOf_iff.mpr (List.prefix_append _ _)
    rw [if_pos hcond, ← List.cons_append, List.drop_left]

/-- Back-substituting one placeholder on the flat text acts piecewise. -/
theorem pyReplaceF_alt (i : Nat) (orig : List Char) :
    ∀ fuel L, wfPieces L → (altFlat L).length ≤ fuel →
      pyReplaceF (mkTok i) orig fuel (altFlat L) =
        altFlat (L.map (substPiece i orig)) := by
  intro fuel
  induction fuel using Nat.strong_induction_on with
  | _ fuel ihf =>
    intro L hwf hfuel
    cases L with
    | nil => cases fuel <;> rfl
    | cons piece M =>
      obtain ⟨hw1, hwM⟩ := wfPieces_cons.mp hwf
      cases piece with
      | chunk s =>
        obtain ⟨hsne, hsu⟩ := hw1
        cases s with
        | nil => exact absurd rfl hsne
        | cons c s' =>
          have hc : c ≠ '_' := fun hceq => hsu (by rw [← hceq]; exact List.mem_cons_self _ _)
          have hflat : altFlat (Piece.chunk (c :: s') :: M) = c :: (s' ++ altFlat M) := by
            simp [altFlat, pieceFlat]
          cases fuel with
          | zero =>
            exfalso
            rw [hflat] at hfuel
            simp only [List.length_cons] at hfuel
            omega
          | succ f =>
            rw [hflat, pyReplaceF]
            have hnm : ¬ ((!(mkTok i).isEmpty &&
                (mkTok i).isPrefixOf (c :: (s' ++ altFlat M))) = true) := by
              intro hcontra
              rw [Bool.and_eq_true] at hcontra
              have hpre := isPrefixOf_iff.mp hcontra.2
              rw [mkTok_eq, List.cons_prefix_cons] at hpre
              exact hc hpre.1.symm
            rw [if_neg hnm]
            have htail : s' ++ altFlat M = altFlat (chunkCons s' M) :=
              (altFlat_chunkCons s' M).symm
            have hwf' : wfPieces (chunkCons s' M) :=
              wfPieces_chunkCons (fun hm => hsu (by simp [hm])) hwM
            have hb : (altFlat (chunkCons s' M)).length ≤ f := by
              rw [← htail]
              rw [hflat] at hfuel
              simp only [List.length_cons] at hfuel
              omega
            rw [htail, ihf f (by omega) (chunkCons s' M) hwf' hb,
              map_substPiece_chunkCons, altFlat_chunkCons]
            simp [altFlat, pieceFlat, substPiece, List.map_cons]
      | tok j =>
        have hflat : altFlat (Piece.tok j :: M) = mkTok j ++ altFlat M := by
          simp [altFlat, pieceFlat]
        by_cases hji : j = i
        · subst hji
          cases fuel with
          | zero =>
            exfalso
            rw [hflat, mkTok_eq] at hfuel
            simp at hfuel
          | succ f =>
            rw [hflat, pyReplaceF_step_match _ _ _ _ (mkTok_ne_nil j)]
            have hb : (altFlat M).length ≤ f := by
              rw [hflat] at hfuel
              rw [List.length_append, mkTok_length] at hfuel
              omega
            rw [ihf f (by omega) M hwM hb]
            simp [altFlat, pieceFlat, substPiece, List.map_cons]
        · have hij : i ≠ j := fun hcontra => hji hcontra.symm
          have hfuel' : (mkTok j).length + (altFlat M).length ≤ fuel := by
            rw [hflat, List.length_append] at hfuel
            exact hfuel
          rw [hflat, pyReplaceF_copy (mkTok j) (altFlat M) (mkTok i) orig fuel
            (tok_no_occur i j hij M hwM) hfuel']
          have hb : (altFlat M).length ≤ fuel - (mkTok j).length := by
            omega
          have hlt : fuel - (mkTok j).length < fuel := by
            rw [mkTok_length] at hfuel' ⊢
            omega
          rw [ihf _ hlt M hwM hb]
          simp [altFlat, pieceFlat, substPiece, List.map_cons, hji]

theorem mem_toks_map_subst (i x : Nat) (orig : List Char) :
    ∀ L : List Piece,
      x ∈ toks (L.map (substPiece i orig)) ↔ (x ∈ toks L ∧ x ≠ i) := by
  intro L
  induction L with
  | nil => simp [toks]
  | cons p M ih =>
    cases p with
    | chunk s =>
      simp only [List.map_cons, substPiece, toks]
      exact ih
    | tok k =>
      by_cases hk : k = i
      · subst hk
        simp only [List.map_cons, substPiece, if_true]
        simp only [toks, List.mem_cons]
        rw [ih]
        constructor
        · rintro ⟨h1, h2⟩
          exact ⟨Or.inr h1, h2⟩
        · rintro ⟨h1 | h1, h2⟩
          · exact absurd h1 h2
          · exact ⟨h1, h2⟩
      · simp only [List.map_cons, substPiece]
        rw [if_neg hk]
        simp only [toks, List.mem_cons]
        rw [ih]
        constructor
        · rintro (h1 | ⟨h1, h2⟩)
          · exact ⟨Or.inl h1, by rw [h1]; exact hk⟩
          · exact ⟨Or.inr h1, h2⟩
        · rintro ⟨h1 | h1, h2⟩
          · exact Or.inl h1
          · exact Or.inr ⟨h1, h2⟩

theorem chunk_stable :
    ∀ qs : List (Nat × List Char), ∀ L : List Piece, ∀ s,
      Piece.chunk s ∈ L →
      Piece.chunk s ∈ qs.foldl (fun Lc p => Lc.map (substPiece p.1 p.2)) L := by
  intro qs
  induction qs with
  | nil => intro L s h; simpa using h
  | cons p qs' ih =>
    intro L s h
    rw [List.foldl_cons]
    exact ih _ s (List.mem_map.mpr ⟨Piece.chunk s, h, rfl⟩)

theorem tok_to_chunk (i : Nat) (orig : List Char) :
    ∀ L : List Piece, i ∈ toks L →
      Piece.chunk orig ∈ L.map (substPiece i orig) := by
  intro L
  induction L with
  | nil => intro h; simp [toks] at h
  | cons p M ih =>
    intro h
    cases p with
    | chunk s =>
      rw [toks] at h
      simp only [List.map_cons]
      exact List.mem_cons_of_mem _ (ih h)
    | tok k =>
      rw [toks, List.mem_cons] at h
      simp only [List.map_cons, substPiece]
      rcases h with h | h
      · rw [if_pos h.symm]
        exact List.mem_cons_self _ _
      · exact List.mem_cons_of_mem _ (ih h)

theorem wfPieces_map_subst {i : Nat} {orig : List Char}
    (ho : orig ≠ [] ∧ '_' ∉ orig) :
    ∀ L : List Piece, wfPieces L → wfPieces (L.map (substPiece i orig)) := by
  intro L hL p hp
  rw [List.mem_map] at hp
  obtain ⟨q, hq, hqe⟩ := hp
  subst hqe
  cases q with
  | chunk s => exact hL _ hq
  | tok k =>
    by_cases hk : k = i
    · simp only [substPiece]
      rw [if_pos hk]
      exact ho
    · simp only [substPiece]
      rw [if_neg hk]
      trivial

theorem wfPieces_foldl_subst :
    ∀ qs : List (Nat × List Char), ∀ L : List Piece, wfPieces L →
      (∀ p ∈ qs, p.2 ≠ [] ∧ '_' ∉ p.2) →
      wfPieces (qs.foldl (fun Lc p => Lc.map (substPiece p.1 p.2)) L) := by
  intro qs
  induction qs with
  | nil => intro L hL _; exact hL
  | cons p qs' ih =>
    intro L hL hq
    rw [List.foldl_cons]
    exact ih _ (wfPieces_map_subst (hq p (by simp)) L hL)
      (fun r hr => hq r (by simp [hr]))

/-- The back-substitution fold acts piecewise on the alternation. -/
theorem foldl_pyReplace_alt :
    ∀ qs : List (Nat × List Char), ∀ L : List Piece, wfPieces L →
      (∀ p ∈ qs, p.2 ≠ [] ∧ '_' ∉ p.2) →
      qs.foldl (fun acc p => pyReplace acc (mkTok p.1) p.2) (altFlat L) =
        altFlat (qs.foldl (fun Lc p => Lc.map (substPiece p.1 p.2)) L) := by
  intro qs
  induction qs with
  | nil => intro L _ _; rfl
  | cons p qs' ih =>
    intro L hL hq
    rw [List.foldl_cons, List.foldl_cons]
    have h1 : pyReplace (altFlat L) (mkTok p.1) p.2 =
        altFlat (L.map (substPiece p.1 p.2)) := by
      rw [pyReplace]
      exact pyReplaceF_alt p.1 p.2 (altFlat L).length L hL le_rfl
    rw [h1]
    exact ih _ (wfPieces_map_subst (hq p (by simp)) L hL)
      (fun r hr => hq r (by simp [hr]))

/-- After substituting every placeholder index present in the text, no
token piece remains. -/
theorem toks_foldl_nil :
    ∀ qs : List (Nat × List Char), ∀ L : List Piece,
      (∀ j ∈ toks L, j ∈ qs.map Prod.fst) →
      toks (qs.foldl (fun Lc p => Lc.map (substPiece p.1 p.2)) L) = [] := by
  intro qs
  induction qs with
  | nil =>
    intro L h
    rw [List.foldl_nil]
    cases htk : toks L with
    | nil => rfl
    | cons a tl =>
      exfalso
      have := h a (by rw [htk]; exact List.mem_cons_self _ _)
      simp at this
  | cons p qs' ih =>
    intro L h
    rw [List.foldl_cons]
    apply ih
    intro j hj
    rw [mem_toks_map_subst] at hj
    have h2 := h j hj.1
    rw [List.map_cons, List.mem_cons] at h2
    rcases h2 with h2 | h2
    · exact absurd h2 hj.2
    · exact h2

/-- A recorded pair's placeholder is substituted by its original text, and
that chunk survives the remaining substitutions. -/
theorem subst_gives_chunk :
    ∀ qs : List (Nat × List Char), ∀ L : List Piece, ∀ i orig,
      i ∈ toks L → (i, orig) ∈ qs → (qs.map Prod.fst).Nodup →
      Piece.chunk orig ∈ qs.foldl (fun Lc p => Lc.map (substPiece p.1 p.2)) L := by
  intro qs
  induction qs with
  | nil => intro L i orig _ hmem _; simp at hmem
  | cons p qs' ih =>
    intro L i orig htok hmem hnd
    rw [List.foldl_cons]
    rcases List.mem_cons.mp hmem with heq | hmem'
    · subst heq
      exact chunk_stable qs' _ orig (tok_to_chunk i orig L htok)
    · have hp1 : p.1 ≠ i := by
        intro hcontra
        rw [List.map_cons, List.nodup_cons] at hnd
        apply hnd.1
        rw [hcontra]
        exact List.mem_map.mpr ⟨(i, orig), hmem', rfl⟩
      have htok' : i ∈ toks (L.map (substPiece p.1 p.2)) := by
        rw [mem_toks_map_subst]
        exact ⟨htok, fun h => hp1 h.symm⟩
      have hnd' : (qs'.map Prod.fst).Nodup := by
        rw [List.map_cons, List.nodup_cons] at hnd
        exact hnd.2
      exact ih _ i orig htok' hmem' hnd'

/-- The flat text of a token-free well-formed piece list is underscore-free. -/
theorem no_underscore_flat :
    ∀ L : List Piece, wfPieces L → toks L = [] → '_' ∉ altFlat L := by
  intro L
  induction L with
  | nil => intro _ _; simp [altFlat]
  | cons p M ih =>
    intro hwf htk
    obtain ⟨hw1, hwM⟩ := wfPieces_cons.mp hwf
    cases p with
    | chunk s =>
      rw [toks] at htk
      simp only [altFlat, pieceFlat, List.mem_append]
      rintro (h | h)
      · exact hw1.2 h
      · exact ih hwM htk h
    | tok i =>
      rw [toks] at htk
      simp at htk

theorem insertByLen_perm (x : Nat × List Char) :
    ∀ l : List (Nat × List Char), List.Perm (insertByLen x l) (x :: l) := by
  intro l
  induction l with
  | nil => exact List.Perm.refl _
  | cons y ys ih =>
    rw [insertByLen]
    split
    · exact (List.Perm.cons y ih).trans (List.Perm.swap x y ys)
    · exact List.Perm.refl _

theorem sortByTokenLen_perm :
    ∀ l : List (Nat × List Char), List.Perm (sortByTokenLen l) l := by
  intro l
  induction l with
  | nil => exact List.Perm.refl _
  | cons x xs ih =>
    rw [sortByTokenLen]
    exact (insertByLen_perm x (sortByTokenLen xs)).trans (List.Perm.cons x ih)

/-- A chunk piece's text is an infix of the flat text. -/
theorem chunk_infix_flat (s : List Char) :
    ∀ L : List Piece, Piece.chunk s ∈ L → s <:+: altFlat L := by
  intro L h
  obtain ⟨u, v, huv⟩ := List.append_of_mem h
  subst huv
  rw [altFlat_append]
  exact ⟨altFlat u, altFlat v, by simp [altFlat, pieceFlat, List.append_assoc]⟩

theorem tok_occurrence_underscore {i : Nat} {out : List Char}
    (h : mkTok i <:+: out) : '_' ∈ out := by
  apply h.subset
  rw [mkTok_eq]
  exact List.mem_cons_self _ _

theorem split_at_underscore :
    ∀ s : List Char, '_' ∈ s → ∃ w r, s = w ++ '_' :: r ∧ '_' ∉ w := by
  intro s
  induction s with
  | nil => intro h; simp at h
  | cons c s' ih =>
    intro h
    by_cases hc : c = '_'
    · exact ⟨[], s', by rw [hc, List.nil_append], by simp⟩
    · have h' : '_' ∈ s' := by
        rcases List.mem_cons.mp h with h2 | h2
        · exact absurd h2.symm hc
        · exact h2
      obtain ⟨w, r, hwr, hw⟩ := ih h'
      refine ⟨c :: w, r, by rw [List.cons_append, hwr], ?_⟩
      simp only [List.mem_cons]
      rintro (h2 | h2)
      · exact hc h2.symm
      · exact hw h2

theorem mem_drop_last (c : Char) :
    ∀ (pre : List Char) (k : Nat), k < (pre ++ [c]).length → c ∈ (pre ++ [c]).drop k := by
  intro pre k hk
  rw [List.drop_append_eq_append_drop]
  have h0 : k - pre.length = 0 := by
    rw [List.length_append] at hk
    simp at hk
    omega
  rw [h0, List.drop_zero]
  exact List.mem_append.mpr (Or.inr (List.mem_cons_self _ _))

theorem underscore_in_tok_drop (j k : Nat) (hk : k < (mkTok j).length) :
    '_' ∈ (mkTok j).drop k := by
  have hsplit : mkTok j =
      ('_' :: '_' :: 'P' :: 'L' :: 'A' :: 'C' :: 'E' :: 'H' :: 'O' ::
        'L' :: 'D' :: 'E' :: 'R' :: '_' :: (digits10 j ++ ['_'])) ++ ['_'] := by
    rw [mkTok_eq]
    simp
  rw [hsplit] at hk ⊢
  exact mem_drop_last '_' _ k hk

/-- Every suffix of a token, continued by any further text, is a block of
word characters followed by an underscore and a remainder. -/
theorem tok_suffix_shape (j k : Nat) (hk : k < (mkTok j).length) (t : List Char) :
    ∃ w r, (mkTok j).drop k ++ t = w ++ '_' :: r ∧
      (∀ c ∈ w, isWordChar c = true) := by
  obtain ⟨w, r0, hwr, hw⟩ := split_at_underscore _ (underscore_in_tok_drop j k hk)
  refine ⟨w, r0 ++ t, ?_, ?_⟩
  · rw [hwr]
    simp [List.append_assoc]
  · intro c hc
    apply mkTok_chars_word j
    exact List.mem_of_mem_drop (by rw [hwr]; exact List.mem_append.mpr (Or.inl hc))

theorem ciPrefixOf_underscore_head (term : List Char) (hne : term ≠ [])
    (hu : '_' ∉ term) (r : List Char) :
    ciPrefixOf term ('_' :: r) = false := by
  cases term with
  | nil => exact absurd rfl hne
  | cons t ts =>
    have hnot : ¬ (pyToLower t = pyToLower '_') := by
      intro hcontra
      have h3 : t = '_' := pyToLower_underscore (by rw [hcontra]; decide)
      exact hu (by rw [h3]; exact List.mem_cons_self _ _)
    rw [ciPrefixOf]
    simp [hnot]

/-- No term match can begin at a token start: the token opens with an
underscore and the term is underscore-free. -/
theorem no_match_tok_start (wb : Bool) (term : List Char) (hne : term ≠ [])
    (hu : '_' ∉ term) (prev : Option Char) (j : Nat) (t : List Char) :
    matchesAt wb term prev (mkTok j ++ t) = false := by
  rw [matchesAt]
  have hci : ciPrefixOf term (mkTok j ++ t) = false := by
    rw [mkTok_eq, List.cons_append]
    exact ciPrefixOf_underscore_head term hne hu _
  simp [hci]

/-- No term match can begin strictly inside a token: in word-boundary mode
the preceding token character is a word character; in literal mode the
term's non-word character cannot be matched before the next underscore. -/
theorem no_match_tok_inside (term : List Char) (hne : term ≠ [])
    (hu : '_' ∉ term) (j k : Nat) (hk : k < (mkTok j).length)
    (c : Char) (hc : isWordChar c = true) (t : List Char) :
    matchesAt (!term.any fun d => !isWordChar d) term (some c)
      ((mkTok j).drop k ++ t) = false := by
  cases hany : term.any (fun d => !isWordChar d) with
  | false => simp [matchesAt, noWordBefore, hany, hc]
  | true =>
    obtain ⟨dnw, hdnw, hdnwP⟩ := List.any_eq_true.mp hany
    rw [matchesAt]
    cases hci : ciPrefixOf term ((mkTok j).drop k ++ t) with
    | false => simp [hci]
    | true =>
      exfalso
      obtain ⟨w, r, hshape, hword⟩ := tok_suffix_shape j k hk t
      rw [hshape] at hci
      have h1 : isWordChar dnw = true := ci_through_words w term r hword hci hu dnw hdnw
      simp only [Bool.not_eq_true'] at hdnwP
      rw [h1] at hdnwP
      simp at hdnwP

theorem numMatchesF_nil (wb : Bool) (term : List Char) (fuel : Nat)
    (prev : Option Char) : numMatchesF wb term fuel prev [] = 0 := by
  cases fuel <;> rfl

theorem passReplaceF_nil (wb : Bool) (term : List Char) (base fuel : Nat)
    (prev : Option Char) (r : Nat) :
    passReplaceF wb term base fuel prev [] r = ([], []) := by
  cases fuel <;> rfl

theorem numMatchesF_step_nomatch (wb : Bool) (term : List Char) (f : Nat)
    (prev : Option Char) (c : Char) (rest : List Char)
    (h : matchesAt wb term prev (c :: rest) = false) :
    numMatchesF wb term (f + 1) prev (c :: rest) =
      numMatchesF wb term f (some c) rest := by
  rw [numMatchesF, if_neg (by rw [h]; simp)]

theorem numMatchesF_step_match (wb : Bool) (term : List Char) (f : Nat)
    (prev : Option Char) (c : Char) (rest : List Char)
    (h : matchesAt wb term prev (c :: rest) = true) :
    numMatchesF wb term (f + 1) prev (c :: rest) =
      1 + numMatchesF wb term f ((c :: rest).take term.length).getLast?
        ((c :: rest).drop term.length) := by
  rw [numMatchesF, if_pos h]

theorem passReplaceF_step_nomatch (wb : Bool) (term : List Char) (base f : Nat)
    (prev : Option Char) (c : Char) (rest : List Char) (r : Nat)
    (h : matchesAt wb term prev (c :: rest) = false) :
    passReplaceF wb term base (f + 1) prev (c :: rest) r =
      (c :: (passReplaceF wb term base f (some c) rest r).1,
        (passReplaceF wb term base f (some c) rest r).2) := by
  rw [passReplaceF, if_neg (by rw [h]; simp)]

theorem passReplaceF_step_match (wb : Bool) (term : List Char) (base f : Nat)
    (prev : Option Char) (c : Char) (rest : List Char) (r : Nat)
    (h : matchesAt wb term prev (c :: rest) = true) :
    passReplaceF wb term base (f + 1) prev (c :: rest) r =
      (mkTok (base + r - 1) ++
        (passReplaceF wb term base f ((c :: rest).take term.length).getLast?
          ((c :: rest).drop term.length) (r - 1)).1,
       (base + r - 1, (c :: rest).take term.length) ::
        (passReplaceF wb term base f ((c :: rest).take term.length).getLast?
          ((c :: rest).drop term.length) (r - 1)).2) := by
  rw [passReplaceF, if_pos h]

/-- The scanner's previous-character state after crossing a block. -/
def lastOpt (prev : Option Char) : List Char → Option Char
  | [] => prev
  | c :: w => lastOpt (some c) w

/-- Both scanner passes copy a block that matches at none of its
positions. -/
theorem scan_copy (wb : Bool) (term : List Char) :
    ∀ w t prev fuel,
      w.length + t.length ≤ fuel →
      (w ≠ [] → matchesAt wb term prev (w ++ t) = false) →
      (∀ u c v, w = u ++ c :: v → v ≠ [] →
        matchesAt wb term (some c) (v ++ t) = false) →
      numMatchesF wb term fuel prev (w ++ t) =
        numMatchesF wb term (fuel - w.length) (lastOpt prev w) t ∧
      ∀ base rr, passReplaceF wb term base fuel prev (w ++ t) rr =
        (w ++ (passReplaceF wb term base (fuel - w.length) (lastOpt prev w) t rr).1,
         (passReplaceF wb term base (fuel - w.length) (lastOpt prev w) t rr).2) := by
  intro w
  induction w with
  | nil =>
    intro t prev fuel _ _ _
    refine ⟨by rw [List.nil_append, lastOpt]; rfl, fun base rr => ?_⟩
    rw [List.nil_append, lastOpt, List.nil_append]
    simp
  | cons c0 w' ih =>
    intro t prev fuel hf h0 hin
    have hm : matchesAt wb term prev (c0 :: (w' ++ t)) = false := by
      rw [← List.cons_append]
      exact h0 (by simp)
    cases fuel with
    | zero =>
      exfalso
      simp only [List.length_cons] at hf
      omega
    | succ f =>
      have hf' : w'.length + t.length ≤ f := by
        simp only [List.length_cons] at hf
        omega
      have h0' : w' ≠ [] → matchesAt wb term (some c0) (w' ++ t) = false := by
        intro hne
        exact hin [] c0 w' (by rw [List.nil_append]) hne
      have hin' : ∀ u c v, w' = u ++ c :: v → v ≠ [] →
          matchesAt wb term (some c) (v ++ t) = false := by
        intro u c v huv hv
        exact hin (c0 :: u) c v (by rw [huv, List.cons_append]) hv
      obtain ⟨ihnum, ihpass⟩ := ih t (some c0) f hf' h0' hin'
      have harith : f + 1 - (c0 :: w').length = f - w'.length := by
        simp only [List.length_cons]
        omega
      have hlast : lastOpt prev (c0 :: w') = lastOpt (some c0) w' := rfl
      constructor
      · rw [List.cons_append, numMatchesF_step_nomatch wb term f prev c0 (w' ++ t) hm,
          ihnum, harith, hlast]
      · intro base rr
        rw [List.cons_append, passReplaceF_step_nomatch wb term base f prev c0 (w' ++ t) rr hm,
          ihpass base rr, harith, hlast, List.cons_append]

/-- Dropping an underscore-free prefix from the flat text of a
well-formed piece list yields the flat text of a well-formed piece list
with the same tokens. -/
theorem flat_drop_chunk :
    ∀ L : List Piece, wfPieces L → ∀ n, '_' ∉ (altFlat L).take n →
      ∃ M', wfPieces M' ∧ altFlat M' = (altFlat L).drop n ∧
        (∀ x, x ∈ toks M' ↔ x ∈ toks L) := by
  intro L
  induction L with
  | nil =>
    intro _ n _
    exact ⟨[], wfPieces_nil, by simp [altFlat], fun x => Iff.rfl⟩
  | cons piece M ih =>
    intro hwf n htake
    obtain ⟨hw1, hwM⟩ := wfPieces_cons.mp hwf
    cases piece with
    | chunk s =>
      have hflat : altFlat (Piece.chunk s :: M) = s ++ altFlat M := by
        simp [altFlat, pieceFlat]
      rcases le_or_lt n s.length with hns | hns
      · refine ⟨chunkCons (s.drop n) M, ?_, ?_, ?_⟩
        · refine wfPieces_chunkCons (fun hm => hw1.2 (List.mem_of_mem_drop hm)) hwM
        · rw [altFlat_chunkCons, hflat, List.drop_append_eq_append_drop]
          have h0 : n - s.length = 0 := by omega
          rw [h0, List.drop_zero]
        · intro x
          rw [toks_chunkCons]
          exact Iff.rfl
      · have htake' : '_' ∉ (altFlat M).take (n - s.length) := by
          intro hm
          apply htake
          rw [hflat, List.take_append_eq_append_take]
          exact List.mem_append.mpr (Or.inr hm)
        obtain ⟨M', hwf', hfl', htk'⟩ := ih hwM (n - s.length) htake'
        refine ⟨M', hwf', ?_, htk'⟩
        rw [hfl', hflat, List.drop_append_eq_append_drop,
          List.drop_of_length_le (show s.length ≤ n by omega), List.nil_append]
    | tok j =>
      cases n with
      | zero => exact ⟨Piece.tok j :: M, hwf, by rw [List.drop_zero], fun x => Iff.rfl⟩
      | succ m =>
        exfalso
        apply htake
        have hflat : altFlat (Piece.tok j :: M) = mkTok j ++ altFlat M := by
          simp [altFlat, pieceFlat]
        rw [hflat, mkTok_eq, List.cons_append, List.take_succ_cons]
        exact List.mem_cons_self _ _

/-- One placeholder pass, tracked on the alternation structure: the text
stays an alternation, matches occur only in chunk material, the recorded
pairs carry the indices `base..base+r-1` in descending order, and each
recorded original is nonempty and underscore-free. -/
theorem pass_master (term : List Char) (hne : term ≠ []) (hu : '_' ∉ term) :
    ∀ fuel L prev base r,
      wfPieces L → (altFlat L).length ≤ fuel →
      r = numMatchesF (!term.any fun d => !isWordChar d) term fuel prev (altFlat L) →
      ∃ L' ps,
        passReplaceF (!term.any fun d => !isWordChar d) term base fuel prev
          (altFlat L) r = (altFlat L', ps) ∧
        wfPieces L' ∧
        (∀ x, x ∈ toks L' ↔ x ∈ toks L ∨ (base ≤ x ∧ x < base + r)) ∧
        ps.map Prod.fst = (idxRange base r).reverse ∧
        (∀ p ∈ ps, p.2 ≠ [] ∧ '_' ∉ p.2) := by
  intro fuel
  induction fuel using Nat.strong_induction_on with
  | _ fuel ihf =>
    intro L prev base r hwf hfuel hr
    cases L with
    | nil =>
      have h0 : r = 0 := by
        rw [hr, show altFlat [] = [] from rfl, numMatchesF_nil]
      refine ⟨[], [], ?_, wfPieces_nil, ?_, ?_, ?_⟩
      · rw [show altFlat [] = [] from rfl, passReplaceF_nil]
      · intro x
        constructor
        · intro hcontra
          rw [toks] at hcontra
          simp at hcontra
        · rintro (hcontra | ⟨h1, h2⟩)
          · exact hcontra
          · exfalso
            rw [h0] at h2
            omega
      · rw [h0]; rfl
      · intro p hp; simp at hp
    | cons piece M =>
      obtain ⟨hw1, hwM⟩ := wfPieces_cons.mp hwf
      cases piece with
      | chunk s =>
        obtain ⟨hsne, hsu⟩ := hw1
        cases s with
        | nil => exact absurd rfl hsne
        | cons c s' =>
          have hflat : altFlat (Piece.chunk (c :: s') :: M) =
              c :: altFlat (chunkCons s' M) := by
            rw [altFlat_chunkCons]
            simp [altFlat, pieceFlat]
          cases fuel with
          | zero =>
            exfalso
            rw [hflat] at hfuel
            simp only [List.length_cons] at hfuel
            omega
          | succ f =>
            cases hm : matchesAt (!term.any fun d => !isWordChar d) term prev
                (c :: altFlat (chunkCons s' M)) with
            | false =>
              have hr' : r = numMatchesF (!term.any fun d => !isWordChar d) term f
                  (some c) (altFlat (chunkCons s' M)) := by
                rw [hr, hflat, numMatchesF_step_nomatch _ _ _ _ _ _ hm]
              have hwfc : wfPieces (chunkCons s' M) :=
                wfPieces_chunkCons (fun hmem => hsu (by simp [hmem])) hwM
              have hfc : (altFlat (chunkCons s' M)).length ≤ f := by
                rw [hflat] at hfuel
                simp only [List.length_cons] at hfuel
                omega
              obtain ⟨L'', ps'', hpass, hwf'', htoks'', hmap'', horig''⟩ :=
                ihf f (by omega) (chunkCons s' M) (some c) base r hwfc hfc hr'
              have hcne : c ≠ '_' :=
                fun hceq => hsu (by rw [← hceq]; exact List.mem_cons_self _ _)
              refine ⟨consChunk c L'', ps'', ?_, wfPieces_consChunk hcne hwf'',
                ?_, hmap'', horig''⟩
              · rw [hflat, passReplaceF_step_nomatch _ _ _ _ _ _ _ _ hm, hpass,
                  altFlat_consChunk]
              · intro x
                rw [toks_consChunk, htoks'' x, toks_chunkCons]
                exact Iff.rfl
            | true =>
              have hci : ciPrefixOf term (c :: altFlat (chunkCons s' M)) = true := by
                rw [matchesAt] at hm
                simp only [Bool.and_eq_true] at hm
                exact hm.1.2
              have htl1 : 1 ≤ term.length := by
                cases htl : term.length with
                | zero => exact absurd (List.length_eq_zero.mp htl) hne
                | succ k => omega
              have hmu : '_' ∉ (c :: altFlat (chunkCons s' M)).take term.length :=
                ciPrefixOf_take_underscore_free term _ hu hci
              have hmne : (c :: altFlat (chunkCons s' M)).take term.length ≠ [] := by
                cases htl : term.length with
                | zero => omega
                | succ k =>
                  rw [List.take_succ_cons]
                  simp
              obtain ⟨M', hwfM', hflM', htkM'⟩ :=
                flat_drop_chunk (Piece.chunk (c :: s') :: M) hwf term.length
                  (by rw [hflat]; exact hmu)
              have hdropeq : (c :: altFlat (chunkCons s' M)).drop term.length =
                  altFlat M' := by
                rw [hflM', hflat]
              have hrstep : r = 1 + numMatchesF (!term.any fun d => !isWordChar d) term f
                  ((c :: altFlat (chunkCons s' M)).take term.length).getLast?
                  (altFlat M') := by
                rw [hr, hflat, numMatchesF_step_match _ _ _ _ _ _ hm, hdropeq]
              have hr1 : 1 ≤ r := by omega
              have hr' : r - 1 = numMatchesF (!term.any fun d => !isWordChar d) term f
                  ((c :: altFlat (chunkCons s' M)).take term.length).getLast?
                  (altFlat M') := by omega
              have hfM : (altFlat M').length ≤ f := by
                rw [hdropeq.symm, List.length_drop]
                rw [hflat] at hfuel
                simp only [List.length_cons] at hfuel
                simp only [List.length_cons]
                omega
              obtain ⟨L'', ps'', hpass, hwf'', htoks'', hmap'', horig''⟩ :=
                ihf f (by omega) M'
                  ((c :: altFlat (chunkCons s' M)).take term.length).getLast?
                  base (r - 1) hwfM' hfM hr'
              refine ⟨Piece.tok (base + r - 1) :: L'',
                (base + r - 1, (c :: altFlat (chunkCons s' M)).take term.length) :: ps'',
                ?_, ?_, ?_, ?_, ?_⟩
              · rw [hflat, passReplaceF_step_match _ _ _ _ _ _ _ _ hm, hdropeq, hpass]
                simp [altFlat, pieceFlat]
              · exact wfPieces_cons.mpr ⟨trivial, hwf''⟩
              · intro x
                simp only [toks, List.mem_cons]
                rw [htoks'' x, htkM' x]
                constructor
                · rintro (h1 | h1 | ⟨h2, h3⟩)
                  · right; omega
                  · left; exact h1
                  · right; omega
                · rintro (h1 | ⟨h2, h3⟩)
                  · right; left; exact h1
                  · rcases Nat.lt_or_ge x (base + (r - 1)) with h4 | h4
                    · right; right; exact ⟨h2, h4⟩
                    · left; omega
              · have hconc : idxRange base r = idxRange base (r - 1) ++ [base + (r - 1)] := by
                  have h5 := idxRange_concat (r - 1) base
                  rw [show r - 1 + 1 = r from by omega] at h5
                  exact h5
                rw [List.map_cons, hmap'', hconc, List.reverse_append,
                  show base + (r - 1) = base + r - 1 from by omega]
                simp
              · intro p hp
                rcases List.mem_cons.mp hp with h1 | h1
                · rw [h1]
                  exact ⟨hmne, hmu⟩
                · exact horig'' p h1
      | tok j =>
        have hflat : altFlat (Piece.tok j :: M) = mkTok j ++ altFlat M := by
          simp [altFlat, pieceFlat]
        have h0 : mkTok j ≠ [] →
            matchesAt (!term.any fun d => !isWordChar d) term prev
              (mkTok j ++ altFlat M) = false :=
          fun _ => no_match_tok_start _ term hne hu prev j _
        have hin : ∀ u cc v, mkTok j = u ++ cc :: v → v ≠ [] →
            matchesAt (!term.any fun d => !isWordChar d) term (some cc)
              (v ++ altFlat M) = false := by
          intro u cc v huv hv
          have hccw : isWordChar cc = true := mkTok_chars_word j cc
            (by rw [huv]; exact List.mem_append.mpr (Or.inr (List.mem_cons_self _ _)))
          have hkd : (mkTok j).drop (u.length + 1) = v := by
            rw [huv, List.drop_append_eq_append_drop,
              List.drop_of_length_le (show u.length ≤ u.length + 1 by omega),
              show u.length + 1 - u.length = 1 from by omega,
              List.nil_append, List.drop_succ_cons, List.drop_zero]
          have hklt : u.length + 1 < (mkTok j).length := by
            rw [huv, List.length_append, List.length_cons]
            have hv1 : 0 < v.length := List.length_pos.mpr hv
            omega
          have hres := no_match_tok_inside term hne hu j (u.length + 1) hklt cc hccw
            (altFlat M)
          rw [hkd] at hres
          exact hres
        have hfuel2 : (mkTok j).length + (altFlat M).length ≤ fuel := by
          rw [hflat, List.length_append] at hfuel
          exact hfuel
        obtain ⟨hnum, hpassc⟩ := scan_copy (!term.any fun d => !isWordChar d) term
          (mkTok j) (altFlat M) prev fuel hfuel2 h0 hin
        have hr' : r = numMatchesF (!term.any fun d => !isWordChar d) term
            (fuel - (mkTok j).length) (lastOpt prev (mkTok j)) (altFlat M) := by
          rw [hr, hflat, hnum]
        have hlt : fuel - (mkTok j).length < fuel := by
          have h16 := mkTok_length j
          omega
        have hfM : (altFlat M).length ≤ fuel - (mkTok j).length := by omega
        obtain ⟨L'', ps'', hpass, hwf'', htoks'', hmap'', horig''⟩ :=
          ihf _ hlt M (lastOpt prev (mkTok j)) base r hwM hfM hr'
        refine ⟨Piece.tok j :: L'', ps'', ?_, wfPieces_cons.mpr ⟨trivial, hwf''⟩,
          ?_, hmap'', horig''⟩
        · rw [hflat, hpassc base r, hpass]
          simp [altFlat, pieceFlat]
        · intro x
          simp only [toks, List.mem_cons]
          constructor
          · rintro (h1 | h1)
            · left; left; exact h1
            · rcases (htoks'' x).mp h1 with h2 | h2
              · left; right; exact h2
              · right; exact h2
          · rintro ((h1 | h1) | h2)
            · left; exact h1
            · right; exact (htoks'' x).mpr (Or.inl h1)
            · right; exact (htoks'' x).mpr (Or.inr h2)

theorem applyTerm_master (term : List Char) (hne : term ≠ []) (hu : '_' ∉ term)
    (base : Nat) (L : List Piece) (hwf : wfPieces L) :
    ∃ L' n,
      (applyTerm term base (altFlat L)).1 = altFlat L' ∧
      (applyTerm term base (altFlat L)).2.2 = base + n ∧
      wfPieces L' ∧
      (∀ x, x ∈ toks L' ↔ x ∈ toks L ∨ (base ≤ x ∧ x < base + n)) ∧
      (applyTerm term base (altFlat L)).2.1.map Prod.fst = idxRange base n ∧
      (∀ p ∈ (applyTerm term base (altFlat L)).2.1, p.2 ≠ [] ∧ '_' ∉ p.2) := by
  obtain ⟨L', ps, hpass, hwf', htoks', hmap', horig'⟩ :=
    pass_master term hne hu (altFlat L).length L none base
      (numMatchesF (!term.any fun d => !isWordChar d) term (altFlat L).length none
        (altFlat L)) hwf le_rfl rfl
  refine ⟨L', numMatchesF (!term.any fun d => !isWordChar d) term (altFlat L).length
    none (altFlat L), ?_, ?_, hwf', htoks', ?_, ?_⟩
  · simp only [applyTerm]
    rw [hpass]
  · simp only [applyTerm]
  · simp only [applyTerm]
    rw [hpass]
    simp only [List.map_reverse, hmap', List.reverse_reverse]
  · simp only [applyTerm]
    rw [hpass]
    intro p hp
    exact horig' p (List.mem_reverse.mp hp)

theorem altFlat_map_upper : ∀ L : List Piece,
    (altFlat L).map pyToUpper = altFlat (L.map upperPiece) := by
  intro L
  induction L with
  | nil => rfl
  | cons p M ih =>
    cases p with
    | chunk s => simp [altFlat, pieceFlat, upperPiece, List.map_append, ih]
    | tok i => simp [altFlat, pieceFlat, upperPiece, List.map_append, ih, mkTok_upper_fixed]

theorem toks_map_upper : ∀ L : List Piece, toks (L.map upperPiece) = toks L := by
  intro L
  induction L with
  | nil => rfl
  | cons p M ih =>
    cases p with
    | chunk s =>
      simp only [List.map_cons, upperPiece, toks]
      exact ih
    | tok i =>
      simp only [List.map_cons, upperPiece, toks]
      rw [ih]

theorem wfPieces_map_upper : ∀ L : List Piece, wfPieces L →
    wfPieces (L.map upperPiece) := by
  intro L hL p hp
  rw [List.mem_map] at hp
  obtain ⟨q, hq, hqe⟩ := hp
  subst hqe
  cases q with
  | chunk s =>
    obtain ⟨h1, h2⟩ := hL _ hq
    constructor
    · intro hcontra
      exact h1 (List.map_eq_nil_iff.mp hcontra)
    · intro hcontra
      rw [List.mem_map] at hcontra
      obtain ⟨d, hd, hde⟩ := hcontra
      exact h2 (by rw [← pyToUpper_underscore hde]; exact hd)
  | tok i => trivial

theorem applyTerms_master :
    ∀ terms : List (List Char), (∀ t ∈ terms, t ≠ [] ∧ '_' ∉ t) →
      ∀ base L, wfPieces L →
      ∃ L' n,
        (applyTerms terms base (altFlat L)).1 = altFlat L' ∧
        wfPieces L' ∧
        (∀ x, x ∈ toks L' ↔ x ∈ toks L ∨ (base ≤ x ∧ x < base + n)) ∧
        (applyTerms terms base (altFlat L)).2.map Prod.fst = idxRange base n ∧
        (∀ p ∈ (applyTerms terms base (altFlat L)).2, p.2 ≠ [] ∧ '_' ∉ p.2) := by
  intro terms
  induction terms with
  | nil =>
    intro _ base L hwf
    refine ⟨L, 0, rfl, hwf, ?_, rfl, ?_⟩
    · intro x
      constructor
      · intro h; left; exact h
      · rintro (h | ⟨h1, h2⟩)
        · exact h
        · exfalso; omega
    · intro p hp
      simp [applyTerms] at hp
  | cons term ts ih =>
    intro hterms base L hwf
    obtain ⟨hne, hu⟩ := hterms term (by simp)
    obtain ⟨L1, m, hA, hB, hC, hD, hE, hF⟩ := applyTerm_master term hne hu base L hwf
    obtain ⟨L2, k, h21, h22, h23, h24, h25⟩ :=
      ih (fun t ht => hterms t (by simp [ht])) (base + m) L1 hC
    refine ⟨L2, m + k, ?_, h22, ?_, ?_, ?_⟩
    · simp only [applyTerms]
      rw [hB, hA]
      exact h21
    · intro x
      rw [h23 x, hD x]
      constructor
      · rintro ((h | ⟨a1, a2⟩) | ⟨a1, a2⟩)
        · left; exact h
        · right; exact ⟨by omega, by omega⟩
        · right; exact ⟨by omega, by omega⟩
      · rintro (h | ⟨a1, a2⟩)
        · left; left; exact h
        · rcases Nat.lt_or_ge x (base + m) with h4 | h4
          · left; right; exact ⟨a1, h4⟩
          · right; exact ⟨by omega, by omega⟩
    · simp only [applyTerms]
      rw [hB, hA, List.map_append, hE, h24, idxRange_append]
    · simp only [applyTerms]
      rw [hB, hA]
      intro p hp
      rcases List.mem_append.mp hp with h | h
      · exact hF p h
      · exact h25 p h

/-- Claim C2 (amended): for any list of nonempty underscore-free protected
terms and any underscore-free input text, after a successful translation
round trip through the uppercasing collaborator every term occurrence that
the placeholder pre-pass recorded appears unchanged, with its original
casing, as a substring of the returned string, and no placeholder token
appears anywhere in the returned string. -/
theorem translate_c2 (terms : List (List Char)) (text : List Char)
    (hterms : ∀ t ∈ terms, t ≠ [] ∧ '_' ∉ t) (htext : '_' ∉ text) :
    ∀ out, translate_en_to_el terms upperCollab text = some out →
      (∀ p ∈ (applyTerms terms 0 text).2, p.2 <:+: out) ∧
      ∀ i : Nat, ¬ (mkTok i <:+: out) := by
  intro out hout
  have htne : ¬ (text.isEmpty = true) := by
    intro h
    simp only [translate_en_to_el] at hout
    simp [h] at hout
  simp only [translate_en_to_el, if_neg htne, upperCollab] at hout
  by_cases hemp : ((applyTerms terms 0 text).1.map pyToUpper).isEmpty = true
  · rw [if_pos hemp] at hout
    exact absurd hout (by simp)
  · rw [if_neg hemp] at hout
    have hout2 : backSubstitute ((applyTerms terms 0 text).2)
        ((applyTerms terms 0 text).1.map pyToUpper) = out := Option.some.inj hout
    subst hout2
    have htext0 : text ≠ [] := by
      intro h
      exact htne (by rw [h]; rfl)
    have hwf0 : wfPieces [Piece.chunk text] :=
      wfPieces_cons.mpr ⟨⟨htext0, htext⟩, wfPieces_nil⟩
    have hfeq : altFlat [Piece.chunk text] = text := by
      simp [altFlat, pieceFlat]
    obtain ⟨Lf, n, h1, hwfF, htoksF, hmapF, horigF⟩ :=
      applyTerms_master terms hterms 0 [Piece.chunk text] hwf0
    rw [hfeq] at h1 hmapF horigF
    have htoksF' : ∀ x, x ∈ toks Lf ↔ x < n := by
      intro x
      rw [htoksF x]
      constructor
      · rintro (h | ⟨_, h2⟩)
        · rw [show toks [Piece.chunk text] = [] from rfl] at h
          simp at h
        · omega
      · intro h
        right
        exact ⟨by omega, by omega⟩
    have hupper : (applyTerms terms 0 text).1.map pyToUpper =
        altFlat (Lf.map upperPiece) := by
      rw [h1, altFlat_map_upper]
    have hwfU : wfPieces (Lf.map upperPiece) := wfPieces_map_upper Lf hwfF
    have htoksU : ∀ x, x ∈ toks (Lf.map upperPiece) ↔ x < n := by
      intro x
      rw [toks_map_upper]
      exact htoksF' x
    have hperm : List.Perm (sortByTokenLen ((applyTerms terms 0 text).2))
        ((applyTerms terms 0 text).2) := sortByTokenLen_perm _
    have hqorig : ∀ p ∈ sortByTokenLen ((applyTerms terms 0 text).2),
        p.2 ≠ [] ∧ '_' ∉ p.2 := fun p hp => horigF p (hperm.mem_iff.mp hp)
    have hfold : backSubstitute ((applyTerms terms 0 text).2)
        ((applyTerms terms 0 text).1.map pyToUpper) =
        altFlat ((sortByTokenLen ((applyTerms terms 0 text).2)).foldl
          (fun Lc p => Lc.map (substPiece p.1 p.2)) (Lf.map upperPiece)) := by
      rw [backSubstitute, hupper]
      exact foldl_pyReplace_alt _ _ hwfU hqorig
    rw [hfold]
    constructor
    · intro p hp
      obtain ⟨i, orig⟩ := p
      have hi : i ∈ ((applyTerms terms 0 text).2).map Prod.fst :=
        List.mem_map.mpr ⟨(i, orig), hp, rfl⟩
      rw [hmapF, mem_idxRange] at hi
      have hitoks : i ∈ toks (Lf.map upperPiece) := (htoksU i).mpr (by omega)
      have hqmem : (i, orig) ∈ sortByTokenLen ((applyTerms terms 0 text).2) :=
        hperm.mem_iff.mpr hp
      have hnodup : ((sortByTokenLen ((applyTerms terms 0 text).2)).map
          Prod.fst).Nodup := by
        have hpm : List.Perm
            ((sortByTokenLen ((applyTerms terms 0 text).2)).map Prod.fst)
            (((applyTerms terms 0 text).2).map Prod.fst) := hperm.map Prod.fst
        rw [hpm.nodup_iff, hmapF]
        exact idxRange_nodup n 0
      exact chunk_infix_flat orig _
        (subst_gives_chunk _ _ i orig hitoks hqmem hnodup)
    · intro i hcontra
      have hnotoks : toks ((sortByTokenLen ((applyTerms terms 0 text).2)).foldl
          (fun Lc p => Lc.map (substPiece p.1 p.2)) (Lf.map upperPiece)) = [] := by
        apply toks_foldl_nil
        intro j hj
        rw [htoksU j] at hj
        have hjmem : j ∈ ((applyTerms terms 0 text).2).map Prod.fst := by
          rw [hmapF, mem_idxRange]
          exact ⟨by omega, by omega⟩
        exact ((hperm.map Prod.fst).mem_iff).mpr hjmem
      have hwfFinal : wfPieces ((sortByTokenLen ((applyTerms terms 0 text).2)).foldl
          (fun Lc p => Lc.map (substPiece p.1 p.2)) (Lf.map upperPiece)) :=
        wfPieces_foldl_subst _ _ hwfU hqorig
      exact no_underscore_flat _ hwfFinal hnotoks (tok_occurrence_underscore hcontra)

/-- Witness for C2 on the spec's test instance: protected list
`["eur/usd"]`, input `"EUR/USD rises 2%"`, uppercasing collaborator. -/
theorem translate_c2_witness :
    translate_en_to_el ["eur/usd".data] upperCollab "EUR/USD rises 2%".data =
      some "EUR/USD RISES 2%".data ∧
    "EUR/USD".data <:+: "EUR/USD RISES 2%".data ∧
    ¬ (mkTok 0 <:+: "EUR/USD RISES 2%".data) := by
  have happ := translate_c2 ["eur/usd".data] "EUR/USD rises 2%".data
    (by decide) (by decide) "EUR/USD RISES 2%".data (by decide)
  refine ⟨by decide, ?_, happ.2 0⟩
  have hp : ((0 : Nat), "EUR/USD".data) ∈
      (applyTerms ["eur/usd".data] 0 "EUR/USD rises 2%".data).2 := by decide
  exact happ.1 _ hp

end DiscordBot
